import Mathlib

/-!
Verification of the `Amount` / `Denomination` / `DenominatedAmount` token
subsystem (`crates/core/src/types/token.rs`).

The 256-bit unsigned integer primitive `Uint` is embedded as `Nat` together
with the explicit ceiling `2^256 - 1`; every checked operation carries its
overflow test explicitly, mirroring the `uint` crate's checked arithmetic.
Strings are embedded as `List Char`.

The file is organised as: all definitions first, then all theorems.
-/

namespace Token

/-- `uint::MAX_VALUE`: the largest unsigned 256-bit integer. -/
def MAX_VALUE : Nat := 2 ^ 256 - 1

/-- `uint::MAX_SIGNED_VALUE`: the largest 256-bit two's-complement signed value. -/
def MAX_SIGNED_VALUE : Nat := 2 ^ 255 - 1

/-- `Uint::checked_add`: `None` when the sum overflows 256 bits. -/
def Uint.checked_add (a b : Nat) : Option Nat :=
  if a + b ≤ MAX_VALUE then some (a + b) else none

/-- `Uint::checked_sub`: `None` on underflow. -/
def Uint.checked_sub (a b : Nat) : Option Nat :=
  if b ≤ a then some (a - b) else none

/-- `Uint::checked_mul`: `None` when the product overflows 256 bits. -/
def Uint.checked_mul (a b : Nat) : Option Nat :=
  if a * b ≤ MAX_VALUE then some (a * b) else none

/-- `Uint::checked_div`: `None` exactly on a zero divisor; truncating division. -/
def Uint.checked_div (a b : Nat) : Option Nat :=
  if b = 0 then none else some (a / b)

/-- `Uint::checked_pow`: `None` when the power overflows 256 bits. -/
def Uint.checked_pow (a b : Nat) : Option Nat :=
  if a ^ b ≤ MAX_VALUE then some (a ^ b) else none

/-- `Uint`'s total order, as the three-way comparison returned by `Ord::cmp`. -/
def Uint.cmp (a b : Nat) : Ordering :=
  if a < b then .lt else if a = b then .eq else .gt

/-- Decidable structural equality of `Except` results, so that concrete
parser outcomes can be checked by evaluation. -/
instance {ε α : Type} [DecidableEq ε] [DecidableEq α] :
    DecidableEq (Except ε α) := fun x y =>
  match x, y with
  | .ok a, .ok b =>
    if h : a = b then .isTrue (by rw [h])
    else .isFalse (fun hc => h (Except.ok.inj hc))
  | .error e, .error f =>
    if h : e = f then .isTrue (by rw [h])
    else .isFalse (fun hc => h (Except.error.inj hc))
  | .ok _, .error _ => .isFalse (fun hc => Except.noConfusion hc)
  | .error _, .ok _ => .isFalse (fun hc => Except.noConfusion hc)

/-- `Amount`: a raw 256-bit unsigned magnitude (`struct Amount { raw: Uint }`).
The `Uint` range invariant `raw ≤ MAX_VALUE` is carried as a hypothesis where
a theorem needs it. -/
structure Amount where
  raw : Nat
  deriving DecidableEq

/-- `Amount::zero` (a zeroed `Uint`). -/
def Amount.zero : Amount := ⟨0⟩

/-- `Amount::max`: the maximum unsigned value. -/
def Amount.max : Amount := ⟨MAX_VALUE⟩

/-- `Amount::max_signed`: the maximum signed-representable value. -/
def Amount.max_signed : Amount := ⟨MAX_SIGNED_VALUE⟩

/-- `Amount::checked_add`: `Uint::checked_add` followed by the (redundant)
`result <= uint::MAX_VALUE` filter, exactly as in the source. -/
def Amount.checked_add (a b : Amount) : Option Amount :=
  (Uint.checked_add a.raw b.raw).bind fun result =>
    if result ≤ MAX_VALUE then some ⟨result⟩ else none

/-- `Amount::checked_signed_add`: `Uint::checked_add` followed by the
`result <= uint::MAX_SIGNED_VALUE` filter. -/
def Amount.checked_signed_add (a b : Amount) : Option Amount :=
  (Uint.checked_add a.raw b.raw).bind fun result =>
    if result ≤ MAX_SIGNED_VALUE then some ⟨result⟩ else none

/-- `Amount::checked_sub`. -/
def Amount.checked_sub (a b : Amount) : Option Amount :=
  (Uint.checked_sub a.raw b.raw).map fun result => ⟨result⟩

/-- `Amount::checked_div`. -/
def Amount.checked_div (a b : Amount) : Option Amount :=
  (Uint.checked_div a.raw b.raw).map fun result => ⟨result⟩

/-- `Amount::checked_mul`. -/
def Amount.checked_mul (a b : Amount) : Option Amount :=
  (Uint.checked_mul a.raw b.raw).map fun result => ⟨result⟩

/-- `MaspDigitPos`: the four possible `u64` words in a `Uint`. -/
inductive MaspDigitPos where
  | Zero
  | One
  | Two
  | Three
  deriving DecidableEq

/-- The discriminant of the position (`pos as usize`). -/
def MaspDigitPos.idx : MaspDigitPos → Nat
  | .Zero => 0
  | .One => 1
  | .Two => 2
  | .Three => 3

/-- `MaspDigitPos::denominate`: the `u64` word `amount.raw.0[pos]`, i.e. bits
`64*pos .. 64*pos+64` of the 256-bit magnitude. -/
def MaspDigitPos.denominate (pos : MaspDigitPos) (a : Amount) : Nat :=
  a.raw / 2 ^ (64 * pos.idx) % 2 ^ 64

/-- `Amount::from_masp_denominated`: a zeroed four-word array with `val` in
slot `pos`; as a magnitude this is `val * 2^(64*pos)`. -/
def Amount.from_masp_denominated (val : Nat) (pos : MaspDigitPos) : Amount :=
  ⟨val * 2 ^ (64 * pos.idx)⟩

/-- `Denomination(pub u8)`: a decimal-place count. Embedded as `Nat`; the
`u8` range is an invariant of the Rust type carried as a hypothesis where a
theorem needs it. -/
abbrev Denomination := Nat

/-- `AmountParseError`: the recoverable parse/range error kinds. -/
inductive AmountParseError where
  | ScaleTooLarge (actual : Nat) (maximum : Nat)
  | InvalidRange
  | ConvertToDecimal
  | FromString
  | NotNumeric
  | PrecisionOverflow
  | PrecisionDecrease
  deriving DecidableEq

/-- `DenominatedAmount`: a mantissa with its number of decimal places.
Structural equality (`==`/`Eq` in Rust) requires both fields to match. -/
structure DenominatedAmount where
  amount : Amount
  denom : Denomination
  deriving DecidableEq

/-- `DenominatedAmount::canonical`'s loop body: `self.denom.0` iterations,
each dividing by ten and decrementing the denomination when the remainder
is zero (`div_mod` by ten). -/
def DenominatedAmount.canonicalLoop : Nat → Nat → Nat → Nat × Nat
  | 0, value, denom => (value, denom)
  | fuel + 1, value, denom =>
    if value % 10 = 0 then canonicalLoop fuel (value / 10) (denom - 1)
    else canonicalLoop fuel value denom

/-- `DenominatedAmount::canonical`: strip trailing zeros after the decimal
place, finding the minimal precision that holds the value losslessly. -/
def DenominatedAmount.canonical (x : DenominatedAmount) : DenominatedAmount :=
  let r := DenominatedAmount.canonicalLoop x.denom x.amount.raw x.denom
  ⟨⟨r.1⟩, r.2⟩

/-- `DenominatedAmount::increase_precision`: multiply the magnitude by
`10^(denom - self.denom)`; refuse a precision decrease, fail on 256-bit
overflow of the scaling power or of the multiplication. -/
def DenominatedAmount.increase_precision (x : DenominatedAmount)
    (denom : Denomination) : Except AmountParseError DenominatedAmount :=
  if denom < x.denom then .error .PrecisionDecrease
  else
    match (Uint.checked_pow 10 (denom - x.denom)).bind
        (fun scaling => Uint.checked_mul x.amount.raw scaling) with
    | some amount => .ok ⟨⟨amount⟩, denom⟩
    | none => .error .PrecisionOverflow

/-- The `PartialOrd` impl for `DenominatedAmount`: align to the
lower-denomination side by ceiling division (`div_mod` by
`Uint::exp10(diff)`), with equality demanding a zero remainder,
otherwise ordering the divided side strictly below the other.
`Uint::exp10 diff` is embedded as `10 ^ diff` (they agree wherever
`exp10` does not panic, i.e. for `diff ≤ 77`; every theorem below stays in
that range because an `increase_precision` hypothesis forces
`10^diff ≤ MAX_VALUE`). -/
def DenominatedAmount.ordCompare (x y : DenominatedAmount) : Option Ordering :=
  if x.denom < y.denom then
    let diff := y.denom - x.denom
    let div := y.amount.raw / 10 ^ diff
    let rem := y.amount.raw % 10 ^ diff
    let div_ceil := if rem = 0 then div else div + 1
    let ord := some (Uint.cmp x.amount.raw div_ceil)
    match ord with
    | some Ordering.eq => if rem = 0 then some Ordering.eq else some Ordering.gt
    | o => o
  else
    let diff := x.denom - y.denom
    let div := x.amount.raw / 10 ^ diff
    let rem := x.amount.raw % 10 ^ diff
    let div_ceil := if rem = 0 then div else div + 1
    let ord := some (Uint.cmp div_ceil y.amount.raw)
    match ord with
    | some Ordering.eq => if rem = 0 then some Ordering.eq else some Ordering.lt
    | o => o

/-- The parser's per-character digit extraction
(`if c.is_numeric() { c.to_digit(10) } else { None }`). It keeps exactly the
ASCII digits `'0'..'9'`: a Unicode `is_numeric` character that is not an
ASCII digit has `to_digit(10) == None` and is dropped all the same. -/
def charToDigit? (c : Char) : Option Nat :=
  if c.isDigit then some (c.toNat - 48) else none

/-- `str::find('.')`: the index of the first decimal point. -/
def findDotIdx : List Char → Option Nat
  | [] => none
  | c :: cs => if c = '.' then some 0 else (findDotIdx cs).map (· + 1)

/-- One step of the parser's value loop:
`10^pow` via `checked_pow`, times the digit via `checked_mul`, added to the
accumulator via `checked_add`. -/
def hornerStep (value pow digit : Nat) : Option Nat :=
  (Uint.checked_pow 10 pow).bind fun scaling =>
    (Uint.checked_mul scaling digit).bind fun scaled =>
      Uint.checked_add value scaled

/-- The parser's value loop over the reversed digit list (least significant
digit first), `pow` counting up from zero. -/
def hornerRun : List Nat → Nat → Nat → Option Nat
  | [], _, value => some value
  | d :: ds, pow, value =>
    match hornerStep value pow d with
    | some v => hornerRun ds (pow + 1) v
    | none => none

/-- `<DenominatedAmount as FromStr>::from_str`: locate the decimal point,
extract the digits, reject when any character is neither (`NotNumeric`),
reject more than 77 digits (`ScaleTooLarge`), accumulate the value with
checked arithmetic (`InvalidRange` on failure), and take the fractional
digit count as the denomination. -/
def DenominatedAmount.fromStr (s : List Char) :
    Except AmountParseError DenominatedAmount :=
  let precision := (findDotIdx s).map (fun pos => s.length - pos - 1)
  let digits := (s.filterMap charToDigit?).reverse
  if (digits.length ≠ s.length ∧ precision = none) ∨
      (digits.length ≠ s.length - 1 ∧ precision ≠ none) then
    .error .NotNumeric
  else if 77 < digits.length then
    .error (.ScaleTooLarge digits.length 77)
  else
    match hornerRun digits 0 0 with
    | some value => .ok ⟨⟨value⟩, precision.getD 0⟩
    | none => .error .InvalidRange

/-- The base-ten value of a big-endian digit list. -/
def decVal (ds : List Nat) : Nat := ds.foldl (fun acc d => acc * 10 + d) 0

/-- The base-ten value of a digit list given least-significant first,
starting at the ten's power `pow`. -/
def lowVal (pow : Nat) : List Nat → Nat
  | [] => 0
  | d :: ds => d * 10 ^ pow + lowVal (pow + 1) ds

/-- The numeric value the parser assigns to a string: the base-ten value of
all its digit characters in order, ignoring the decimal point. -/
def digitsVal (s : List Char) : Nat := decVal (s.filterMap charToDigit?)

/-- The characters of `s` that are not ASCII digits. -/
def nonDigits (s : List Char) : List Char := s.filter (fun c => !c.isDigit)

/-- The characters after the first decimal point. -/
def fracTail (s : List Char) : List Char :=
  (s.dropWhile (fun c => c != '.')).drop 1

/-- Outcome of a serde string deserialization: a value, a recoverable
deserialization error, or a panic (the unrecoverable fault of `unwrap`). -/
inductive DeserializeOutcome (α : Type) where
  | ok (value : α)
  | err (e : AmountParseError)
  | panicked
  deriving DecidableEq

/-- `impl Deserialize for Amount`: parse the string as a `DenominatedAmount`
and `unwrap()` the result, keeping only the mantissa. `unwrap` of a parse
error is a panic, not a recoverable serde error. -/
def Amount.deserializeFromStr (s : List Char) : DeserializeOutcome Amount :=
  match DenominatedAmount.fromStr s with
  | .ok d => .ok d.amount
  | .error _ => .panicked

/-- `impl Deserialize for DenominatedAmount`: parse errors are mapped into a
recoverable serde error via `D::Error::custom`. -/
def DenominatedAmount.deserializeFromStr (s : List Char) :
    DeserializeOutcome DenominatedAmount :=
  match DenominatedAmount.fromStr s with
  | .ok d => .ok d
  | .error e => .err e

/-- Fixed-fuel digit printer behind `Uint`'s decimal `Display`
(`self.amount.raw.to_string()`): most significant digit first, no leading
zeros, `"0"` for zero. The fuel only needs to dominate the digit count;
`decimalRepr` passes `n` itself. -/
def decimalReprGo : Nat → Nat → List Char
  | 0, n => [Char.ofNat (48 + n % 10)]
  | fuel + 1, n =>
    if n < 10 then [Char.ofNat (48 + n)]
    else decimalReprGo fuel (n / 10) ++ [Char.ofNat (48 + n % 10)]

/-- `Uint`'s decimal string. -/
def decimalRepr (n : Nat) : List Char := decimalReprGo n n

/-- `DenominatedAmount::to_string_precise`: emit exactly `denom` fractional
digits — no decimal point at denomination zero, a point inserted `denom`
places from the end when the magnitude has more digits, and a left padding
with `0.` and zeros otherwise. -/
def DenominatedAmount.to_string_precise (x : DenominatedAmount) : List Char :=
  let str := decimalRepr x.amount.raw
  if x.denom = 0 then str
  else if x.denom < str.length then
    str.take (str.length - x.denom) ++ '.' :: str.drop (str.length - x.denom)
  else '0' :: '.' :: (List.replicate (x.denom - str.length) '0' ++ str)

/-- Strip redundant leading zeros, leaving a single `0` when the list is all
zeros or empty. -/
def stripLeadingZeros (l : List Char) : List Char :=
  match l.dropWhile (fun c => c == '0') with
  | [] => ['0']
  | r => r

/-- Zero-padding normalization of a decimal string (the spec's "up to
zero-padding normalization"): strip redundant leading zeros from the integer
part and drop an empty fractional part together with its point. -/
def normalizePadding (s : List Char) : List Char :=
  match findDotIdx s with
  | none => stripLeadingZeros s
  | some pos =>
    let intPart := s.take pos
    let fracPart := s.drop (pos + 1)
    if fracPart.isEmpty then stripLeadingZeros intPart
    else stripLeadingZeros intPart ++ '.' :: fracPart

/-- Big-endian base-`B` digits of `n`, `L` of them, most significant first:
the digit at index `j` is `n / B^(L-1-j) % B`. -/
def beDigits (B : Nat) : Nat → Nat → List Nat
  | 0, _ => []
  | L + 1, n => (n / B ^ L % B) :: beDigits B L (n % B ^ L)

/-- `Uint::to_big_endian` into a fixed 32-byte buffer. -/
def toBigEndianBytes (n : Nat) : List Nat := beDigits 256 32 n

/-- The eight bits of one byte, most significant first. -/
def byteBits (b : Nat) : List Nat := beDigits 2 8 b

/-- The concatenated bit string of a byte string (RFC 4648 preamble). -/
def bytesToBits (bs : List Nat) : List Nat := bs.flatMap byteBits

/-- The value of a bit group, most significant bit first. -/
def bitsVal (g : List Nat) : Nat := g.foldl (fun acc b => acc * 2 + b) 0

/-- Split a bit string into 5-bit symbols, zero-padding the final ragged
group on the right (RFC 4648 base32). Fuel-based recursion; the fuel only
needs to dominate the bit count. -/
def bitsToSymsGo : Nat → List Nat → List Nat
  | 0, _ => []
  | fuel + 1, bits =>
    if bits.isEmpty then []
    else bitsVal ((bits ++ [0, 0, 0, 0]).take 5) ::
      bitsToSymsGo fuel (bits.drop 5)

/-- The 5-bit symbols of a bit string. -/
def bitsToSyms (bits : List Nat) : List Nat := bitsToSymsGo bits.length bits

/-- The BASE32HEX alphabet: `0-9` then `A-V`. -/
def base32hexAlphabet : List Char :=
  ['0', '1', '2', '3', '4', '5', '6', '7', '8', '9', 'A', 'B', 'C', 'D',
   'E', 'F', 'G', 'H', 'I', 'J', 'K', 'L', 'M', 'N', 'O', 'P', 'Q', 'R',
   'S', 'T', 'U', 'V']

/-- The character for one 5-bit symbol. -/
def symChar (v : Nat) : Char := base32hexAlphabet.getD v '0'

/-- `BASE32HEX_NOPAD.encode`: 5-bit symbols of the input bytes' bits,
mapped through the hex-extended alphabet, no padding characters. -/
def base32hexEncode (bs : List Nat) : List Char :=
  (bitsToSyms (bytesToBits bs)).map symChar

/-- `<Amount as KeySeg>::raw`: the magnitude as a fixed 32-byte big-endian
buffer, encoded with `BASE32HEX_NOPAD`. -/
def Amount.keySegRaw (a : Amount) : List Char :=
  base32hexEncode (toBigEndianBytes a.raw)

/-- Plain lexicographic strict order on strings. -/
def lexLt : List Char → List Char → Bool
  | [], [] => false
  | [], _ :: _ => true
  | _ :: _, [] => false
  | a :: as, b :: bs =>
    if a < b then true else if b < a then false else lexLt as bs

/-- Lexicographic strict order on digit lists. -/
def natLexLt : List Nat → List Nat → Bool
  | [], [] => false
  | [], _ :: _ => true
  | _ :: _, [] => false
  | a :: as, b :: bs =>
    if a < b then true else if b < a then false else natLexLt as bs

/-! ## Theorems -/

theorem Uint.cmp_eq_lt {a b : Nat} (h : a < b) : Uint.cmp a b = .lt := by
  simp [Uint.cmp, h]

theorem Uint.cmp_eq_eq {a b : Nat} (h : a = b) : Uint.cmp a b = .eq := by
  simp [Uint.cmp, h]

theorem Uint.cmp_eq_gt {a b : Nat} (h : b < a) : Uint.cmp a b = .gt := by
  have h1 : ¬ a < b := Nat.not_lt.mpr (Nat.le_of_lt h)
  have h2 : a ≠ b := Nat.ne_of_gt h
  simp [Uint.cmp, h1, h2]

/-- C2: for all `Amount`s, `checked_add` returns the exact sum exactly when it
stays at or below the unsigned 256-bit ceiling and `none` otherwise;
`checked_sub` returns the exact difference exactly when `b ≤ a`;
`checked_mul` fails exactly on overflow past the ceiling; `checked_div`
fails exactly on a zero divisor and truncates toward zero otherwise. -/
theorem checked_arithmetic_totality (a b : Amount) :
    (a.checked_add b =
      if a.raw + b.raw ≤ MAX_VALUE then some ⟨a.raw + b.raw⟩ else none) ∧
    (a.checked_sub b =
      if b.raw ≤ a.raw then some ⟨a.raw - b.raw⟩ else none) ∧
    (a.checked_mul b =
      if a.raw * b.raw ≤ MAX_VALUE then some ⟨a.raw * b.raw⟩ else none) ∧
    (a.checked_div b =
      if b.raw = 0 then none else some ⟨a.raw / b.raw⟩) := by
  refine ⟨?_, ?_, ?_, ?_⟩
  · unfold Amount.checked_add Uint.checked_add
    split <;> simp_all
  · unfold Amount.checked_sub Uint.checked_sub
    split <;> simp_all
  · unfold Amount.checked_mul Uint.checked_mul
    split <;> simp_all
  · unfold Amount.checked_div Uint.checked_div
    split <;> simp_all

/-- C6: `checked_signed_add` returns the exact sum exactly when it is at most
the signed ceiling `2^255 - 1` and `none` when the sum exceeds it; in
particular `Amount::max().checked_signed_add(Amount::zero())` is `None`. -/
theorem checked_signed_add_spec :
    (∀ a b : Amount,
      a.checked_signed_add b =
        if a.raw + b.raw ≤ MAX_SIGNED_VALUE then some ⟨a.raw + b.raw⟩ else none) ∧
    Amount.max.checked_signed_add Amount.zero = none := by
  constructor
  · intro a b
    unfold Amount.checked_signed_add Uint.checked_add
    have hle : MAX_SIGNED_VALUE ≤ MAX_VALUE := by decide
    by_cases h : a.raw + b.raw ≤ MAX_SIGNED_VALUE
    · have h' : a.raw + b.raw ≤ MAX_VALUE := le_trans h hle
      simp [h, h']
    · by_cases h' : a.raw + b.raw ≤ MAX_VALUE <;> simp [h, h']
  · decide

/-- C4: extracting the four 64-bit words of a 256-bit magnitude with
`MaspDigitPos::denominate`, mapping each back through
`Amount::from_masp_denominated` at its position and summing the four
magnitudes reproduces the original exactly; and `from_masp_denominated`
places its word in slot `pos` with all other slots zero. -/
theorem masp_digit_roundtrip :
    (∀ a : Amount, a.raw < 2 ^ 256 →
      (Amount.from_masp_denominated (MaspDigitPos.denominate .Zero a) .Zero).raw
        + (Amount.from_masp_denominated (MaspDigitPos.denominate .One a) .One).raw
        + (Amount.from_masp_denominated (MaspDigitPos.denominate .Two a) .Two).raw
        + (Amount.from_masp_denominated (MaspDigitPos.denominate .Three a) .Three).raw
        = a.raw) ∧
    (∀ (w : Nat) (pos pos' : MaspDigitPos), w < 2 ^ 64 →
      MaspDigitPos.denominate pos' (Amount.from_masp_denominated w pos) =
        if pos' = pos then w else 0) := by
  constructor
  · intro a ha
    simp only [Amount.from_masp_denominated, MaspDigitPos.denominate,
      MaspDigitPos.idx]
    omega
  · intro w pos pos' hw
    cases pos <;> cases pos' <;>
      simp [Amount.from_masp_denominated, MaspDigitPos.denominate,
        MaspDigitPos.idx] <;>
      omega

/-- Witness for C4 at the magnitude `m = 1 + 2*2^64 + 3*2^128 + 4*2^192` and
the word `w = 5` at position `One`. -/
theorem masp_digit_roundtrip_witness :
    ((Amount.from_masp_denominated
        (MaspDigitPos.denominate .Zero ⟨1 + 2 * 2 ^ 64 + 3 * 2 ^ 128 + 4 * 2 ^ 192⟩) .Zero).raw
      + (Amount.from_masp_denominated
        (MaspDigitPos.denominate .One ⟨1 + 2 * 2 ^ 64 + 3 * 2 ^ 128 + 4 * 2 ^ 192⟩) .One).raw
      + (Amount.from_masp_denominated
        (MaspDigitPos.denominate .Two ⟨1 + 2 * 2 ^ 64 + 3 * 2 ^ 128 + 4 * 2 ^ 192⟩) .Two).raw
      + (Amount.from_masp_denominated
        (MaspDigitPos.denominate .Three ⟨1 + 2 * 2 ^ 64 + 3 * 2 ^ 128 + 4 * 2 ^ 192⟩) .Three).raw
      = 1 + 2 * 2 ^ 64 + 3 * 2 ^ 128 + 4 * 2 ^ 192) ∧
    MaspDigitPos.denominate .Two (Amount.from_masp_denominated 5 .One) = 0 := by
  refine ⟨masp_digit_roundtrip.1 ⟨_⟩ (by norm_num), ?_⟩
  have h := masp_digit_roundtrip.2 5 .One .Two (by norm_num)
  simpa using h

namespace DenominatedAmount

/-- A run of `canonical`'s loop on a value that is not divisible by ten
changes nothing. -/
theorem canonicalLoop_stuck (fuel value denom : Nat) (h : value % 10 ≠ 0) :
    canonicalLoop fuel value denom = (value, denom) := by
  induction fuel with
  | zero => rfl
  | succ fuel ih => simp [canonicalLoop, h, ih]

/-- After `canonical`'s loop, either the value has no trailing zero digit or
the denomination has been driven down by the full fuel. -/
theorem canonicalLoop_post (fuel : Nat) :
    ∀ value denom : Nat, fuel ≤ denom →
      (canonicalLoop fuel value denom).1 % 10 ≠ 0 ∨
      (canonicalLoop fuel value denom).2 + fuel ≤ denom := by
  induction fuel with
  | zero => intro value denom _; right; simp [canonicalLoop]
  | succ fuel ih =>
    intro value denom hle
    by_cases h : value % 10 = 0
    · have h1 : fuel ≤ denom - 1 := by omega
      rcases ih (value / 10) (denom - 1) h1 with h2 | h2
      · left; simpa [canonicalLoop, h] using h2
      · right
        simp only [canonicalLoop, h, if_pos]
        omega
    · left
      simp [canonicalLoop, h, canonicalLoop_stuck _ _ _ h]

/-- C7: `canonical` is idempotent (structural equality of both fields), and
its result never has a magnitude whose last decimal digit is zero while the
denomination is positive. -/
theorem canonical_idempotent (x : DenominatedAmount) :
    canonical (canonical x) = canonical x ∧
    (0 < (canonical x).denom → (canonical x).amount.raw % 10 ≠ 0) := by
  cases hcl : canonicalLoop x.denom x.amount.raw x.denom with
  | mk v d =>
    have hcan : canonical x = ⟨⟨v⟩, d⟩ := by simp [canonical, hcl]
    have hpost := canonicalLoop_post x.denom x.amount.raw x.denom (Nat.le_refl _)
    rw [hcl] at hpost
    have key : 0 < d → v % 10 ≠ 0 := by
      intro hpos
      rcases hpost with h | h
      · exact h
      · omega
    rw [hcan]
    refine ⟨?_, fun hpos => key hpos⟩
    by_cases hd : d = 0
    · subst hd
      simp [canonical, canonicalLoop]
    · have h10 := key (Nat.pos_of_ne_zero hd)
      simp [canonical, canonicalLoop_stuck _ _ _ h10]

/-- Witness for C7 at `x = DenominatedAmount(15, denom 1)`: `canonical x`
equals `x` itself, has positive denomination and last digit `5`. -/
theorem canonical_idempotent_witness :
    canonical (canonical ⟨⟨15⟩, 1⟩) = canonical ⟨⟨15⟩, 1⟩ ∧
    (canonical ⟨⟨15⟩, 1⟩).amount.raw % 10 ≠ 0 :=
  ⟨(canonical_idempotent ⟨⟨15⟩, 1⟩).1,
   (canonical_idempotent ⟨⟨15⟩, 1⟩).2 (by decide)⟩

theorem increase_precision_ok_iff (x : DenominatedAmount) (d : Denomination)
    (x' : DenominatedAmount) :
    x.increase_precision d = .ok x' ↔
      x.denom ≤ d ∧ 10 ^ (d - x.denom) ≤ MAX_VALUE ∧
      x.amount.raw * 10 ^ (d - x.denom) ≤ MAX_VALUE ∧
      x' = ⟨⟨x.amount.raw * 10 ^ (d - x.denom)⟩, d⟩ := by
  unfold increase_precision Uint.checked_pow Uint.checked_mul
  by_cases h1 : d < x.denom
  · simp [h1]
  · by_cases h2 : 10 ^ (d - x.denom) ≤ MAX_VALUE
    · by_cases h3 : x.amount.raw * 10 ^ (d - x.denom) ≤ MAX_VALUE
      · simp [h1, h2, h3]
        constructor
        · intro h; exact ⟨Nat.le_of_not_lt h1, h.symm⟩
        · intro h; exact h.2.symm
      · simp [h1, h2, h3]
    · simp [h1, h2]

/-- On the branch where `x` has the smaller denomination, the ceiling-division
comparison agrees with scaling `x`'s magnitude up by the difference. -/
theorem ordCompare_lt_case (x y : DenominatedAmount) (h : x.denom < y.denom) :
    ordCompare x y =
      some (Uint.cmp (x.amount.raw * 10 ^ (y.denom - x.denom)) y.amount.raw) := by
  have hD : 0 < 10 ^ (y.denom - x.denom) := Nat.pos_pow_of_pos _ (by norm_num)
  simp only [ordCompare, if_pos h]
  set D := 10 ^ (y.denom - x.denom) with hDdef
  set a := x.amount.raw
  set b := y.amount.raw
  have hqr : D * (b / D) + b % D = b := Nat.div_add_mod b D
  have hrD : b % D < D := Nat.mod_lt _ hD
  by_cases hr : b % D = 0
  · simp only [hr, if_pos, reduceIte]
    rcases Nat.lt_trichotomy a (b / D) with hlt | heq | hgt
    · rw [Uint.cmp_eq_lt hlt]
      have : a * D < b := by
        calc a * D < (b / D) * D := (Nat.mul_lt_mul_right hD).mpr hlt
        _ = D * (b / D) := Nat.mul_comm _ _
        _ ≤ b := by omega
      rw [Uint.cmp_eq_lt this]
    · rw [Uint.cmp_eq_eq heq]
      have : a * D = b := by
        rw [heq, Nat.mul_comm]; omega
      rw [Uint.cmp_eq_eq this]
    · rw [Uint.cmp_eq_gt hgt]
      have : b < a * D := by
        calc b = D * (b / D) := by omega
        _ < D * a := (Nat.mul_lt_mul_left hD).mpr hgt
        _ = a * D := Nat.mul_comm _ _
      rw [Uint.cmp_eq_gt this]
  · simp only [hr, reduceIte]
    rcases Nat.lt_trichotomy a (b / D + 1) with hlt | heq | hgt
    · rw [Uint.cmp_eq_lt hlt]
      have : a * D < b := by
        have ha : a ≤ b / D := Nat.lt_succ_iff.mp hlt
        calc a * D ≤ (b / D) * D := Nat.mul_le_mul_right D ha
        _ = D * (b / D) := Nat.mul_comm _ _
        _ < b := by omega
      rw [Uint.cmp_eq_lt this]
    · rw [Uint.cmp_eq_eq heq]
      have : b < a * D := by
        calc b < D * (b / D) + D := by omega
        _ = D * (b / D + 1) := by ring
        _ = D * a := by rw [heq]
        _ = a * D := Nat.mul_comm _ _
      rw [Uint.cmp_eq_gt this]
    · rw [Uint.cmp_eq_gt hgt]
      have : b < a * D := by
        calc b < D * (b / D) + D := by omega
        _ = D * (b / D + 1) := by ring
        _ ≤ D * a := Nat.mul_le_mul_left D (Nat.le_of_lt hgt)
        _ = a * D := Nat.mul_comm _ _
      rw [Uint.cmp_eq_gt this]

/-- On the branch where `x` has the larger-or-equal denomination, the
ceiling-division comparison agrees with scaling `y`'s magnitude up. -/
theorem ordCompare_ge_case (x y : DenominatedAmount) (h : ¬ x.denom < y.denom) :
    ordCompare x y =
      some (Uint.cmp x.amount.raw (y.amount.raw * 10 ^ (x.denom - y.denom))) := by
  have hD : 0 < 10 ^ (x.denom - y.denom) := Nat.pos_pow_of_pos _ (by norm_num)
  simp only [ordCompare, if_neg h]
  set D := 10 ^ (x.denom - y.denom) with hDdef
  set a := x.amount.raw
  set b := y.amount.raw
  have hqr : D * (a / D) + a % D = a := Nat.div_add_mod a D
  have hrD : a % D < D := Nat.mod_lt _ hD
  by_cases hr : a % D = 0
  · simp only [hr, reduceIte]
    rcases Nat.lt_trichotomy (a / D) b with hlt | heq | hgt
    · rw [Uint.cmp_eq_lt hlt]
      have : a < b * D := by
        calc a = D * (a / D) := by omega
        _ < D * b := (Nat.mul_lt_mul_left hD).mpr hlt
        _ = b * D := Nat.mul_comm _ _
      rw [Uint.cmp_eq_lt this]
    · rw [Uint.cmp_eq_eq heq]
      have : a = b * D := by
        rw [← heq, Nat.mul_comm]; omega
      rw [Uint.cmp_eq_eq this]
    · rw [Uint.cmp_eq_gt hgt]
      have : b * D < a := by
        calc b * D = D * b := Nat.mul_comm _ _
        _ < D * (a / D) := (Nat.mul_lt_mul_left hD).mpr hgt
        _ ≤ a := by omega
      rw [Uint.cmp_eq_gt this]
  · simp only [hr, reduceIte]
    rcases Nat.lt_trichotomy (a / D + 1) b with hlt | heq | hgt
    · rw [Uint.cmp_eq_lt hlt]
      have : a < b * D := by
        calc a < D * (a / D) + D := by omega
        _ = D * (a / D + 1) := by ring
        _ ≤ D * b := Nat.mul_le_mul_left D (Nat.le_of_lt hlt)
        _ = b * D := Nat.mul_comm _ _
      rw [Uint.cmp_eq_lt this]
    · rw [Uint.cmp_eq_eq heq]
      have : a < b * D := by
        calc a < D * (a / D) + D := by omega
        _ = D * (a / D + 1) := by ring
        _ = D * b := by rw [heq]
        _ = b * D := Nat.mul_comm _ _
      rw [Uint.cmp_eq_lt this]
    · rw [Uint.cmp_eq_gt hgt]
      have : b * D < a := by
        have hb : b ≤ a / D := Nat.lt_succ_iff.mp hgt
        calc b * D ≤ (a / D) * D := Nat.mul_le_mul_right D hb
        _ = D * (a / D) := Nat.mul_comm _ _
        _ < a := by omega
      rw [Uint.cmp_eq_gt this]

/-- C1: `partial_cmp(x, y)` returns exactly the comparison of the two
magnitudes after both sides are raised, via `increase_precision`, to the
larger of the two denominations (whenever both raisings succeed); and
`DenominatedAmount(15, denom 1)` and `DenominatedAmount(1500, denom 3)`
compare `Equal` under `partial_cmp` yet differ under structural equality. -/
theorem cross_denomination_ordering :
    (∀ x y x' y' : DenominatedAmount,
      x.increase_precision (Nat.max x.denom y.denom) = .ok x' →
      y.increase_precision (Nat.max x.denom y.denom) = .ok y' →
      ordCompare x y = some (Uint.cmp x'.amount.raw y'.amount.raw)) ∧
    ordCompare ⟨⟨15⟩, 1⟩ ⟨⟨1500⟩, 3⟩ = some Ordering.eq ∧
    (⟨⟨15⟩, 1⟩ : DenominatedAmount) ≠ ⟨⟨1500⟩, 3⟩ := by
  refine ⟨?_, by decide, by decide⟩
  intro x y x' y' hx hy
  by_cases hxy : x.denom < y.denom
  · have hmax : Nat.max x.denom y.denom = y.denom :=
      Nat.max_eq_right (Nat.le_of_lt hxy)
    rw [hmax] at hx hy
    obtain ⟨-, -, -, hx'⟩ := (increase_precision_ok_iff x y.denom x').mp hx
    obtain ⟨-, -, -, hy'⟩ := (increase_precision_ok_iff y y.denom y').mp hy
    rw [ordCompare_lt_case x y hxy, hx', hy']
    simp
  · have hmax : Nat.max x.denom y.denom = x.denom :=
      Nat.max_eq_left (Nat.le_of_not_lt hxy)
    rw [hmax] at hx hy
    obtain ⟨-, -, -, hx'⟩ := (increase_precision_ok_iff x x.denom x').mp hx
    obtain ⟨-, -, -, hy'⟩ := (increase_precision_ok_iff y x.denom y').mp hy
    rw [ordCompare_ge_case x y hxy, hx', hy']
    simp

/-- Witness for C1: raising `(15, denom 1)` and `(1500, denom 3)` to
denomination 3 succeeds and `partial_cmp` returns the comparison of the
raised magnitudes (`1500` versus `1500`). -/
theorem cross_denomination_ordering_witness :
    ordCompare ⟨⟨15⟩, 1⟩ ⟨⟨1500⟩, 3⟩ =
      some (Uint.cmp (⟨⟨1500⟩, 3⟩ : DenominatedAmount).amount.raw
        (⟨⟨1500⟩, 3⟩ : DenominatedAmount).amount.raw) :=
  cross_denomination_ordering.1 ⟨⟨15⟩, 1⟩ ⟨⟨1500⟩, 3⟩ ⟨⟨1500⟩, 3⟩ ⟨⟨1500⟩, 3⟩
    (by decide) (by decide)

end DenominatedAmount

theorem charToDigit?_lt {c : Char} {d : Nat} (h : charToDigit? c = some d) :
    d < 10 := by
  unfold charToDigit? at h
  by_cases hd : c.isDigit
  · simp [hd] at h
    simp [Char.isDigit] at hd
    have : c.toNat ≤ 57 := by
      simpa [Char.le_def, Char.toNat] using hd.2
    omega
  · simp [hd] at h

theorem decVal_foldl (l : List Nat) :
    ∀ acc, l.foldl (fun a d => a * 10 + d) acc = acc * 10 ^ l.length + decVal l := by
  induction l with
  | nil => intro acc; simp [decVal]
  | cons d l ih =>
    intro acc
    have hd : decVal (d :: l) = d * 10 ^ l.length + decVal l := by
      show List.foldl _ (0 * 10 + d) l = _
      rw [ih (0 * 10 + d)]
      ring
    show List.foldl _ (acc * 10 + d) l = _
    rw [ih (acc * 10 + d), hd, List.length_cons]
    ring

theorem lowVal_append (u v : List Nat) :
    ∀ pow, lowVal pow (u ++ v) = lowVal pow u + lowVal (pow + u.length) v := by
  induction u with
  | nil => intro pow; simp [lowVal]
  | cons d u ih =>
    intro pow
    have h1 : lowVal pow ((d :: u) ++ v) = d * 10 ^ pow + lowVal (pow + 1) (u ++ v) := rfl
    have h2 : lowVal pow (d :: u) = d * 10 ^ pow + lowVal (pow + 1) u := rfl
    have h3 : pow + (d :: u).length = pow + 1 + u.length := by
      simp [List.length_cons]; omega
    rw [h1, ih (pow + 1), h2, h3]
    omega

theorem lowVal_reverse (l : List Nat) : lowVal 0 l.reverse = decVal l := by
  induction l with
  | nil => simp [lowVal, decVal]
  | cons d l ih =>
    have hd : decVal (d :: l) = d * 10 ^ l.length + decVal l := by
      show List.foldl _ (0 * 10 + d) l = _
      rw [decVal_foldl l (0 * 10 + d)]
      ring
    rw [List.reverse_cons, lowVal_append, ih, hd]
    simp [lowVal, List.length_reverse]
    ring

theorem lowVal_add_pow_le (l : List Nat) :
    ∀ pow, (∀ d ∈ l, d < 10) → lowVal pow l + 10 ^ pow ≤ 10 ^ (pow + l.length) := by
  induction l with
  | nil => intro pow _; simp [lowVal]
  | cons d l ih =>
    intro pow hd
    have h1 := ih (pow + 1) (fun e he => hd e (List.mem_cons_of_mem d he))
    have hd10 : d < 10 := hd d (List.mem_cons_self d l)
    have h2 : (d + 1) * 10 ^ pow ≤ 10 * 10 ^ pow :=
      Nat.mul_le_mul_right _ (by omega)
    have h3 : (10 : Nat) * 10 ^ pow = 10 ^ (pow + 1) := by ring
    have h4 : (d + 1) * 10 ^ pow = d * 10 ^ pow + 10 ^ pow := by ring
    have he : pow + (l.length + 1) = pow + 1 + l.length := by omega
    simp only [lowVal, List.length_cons, he]
    omega

theorem hornerStep_ok {pow value d : Nat} (hd : d < 10) (hpow : pow ≤ 76)
    (hv : value < 10 ^ pow) :
    hornerStep value pow d = some (value + 10 ^ pow * d) := by
  have h77 : (10 : Nat) ^ 77 ≤ MAX_VALUE := by decide
  have hp1 : (10 : Nat) ^ (pow + 1) ≤ 10 ^ 77 :=
    Nat.pow_le_pow_right (by norm_num) (by omega)
  have c1 : (10 : Nat) ^ pow ≤ MAX_VALUE := by
    have : (10 : Nat) ^ pow ≤ 10 ^ 77 :=
      Nat.pow_le_pow_right (by norm_num) (by omega)
    omega
  have hmul : 10 ^ pow * d + value < 10 ^ (pow + 1) := by
    have h4 : 10 ^ pow * (d + 1) = 10 ^ pow * d + 10 ^ pow := by ring
    have h2 : 10 ^ pow * (d + 1) ≤ 10 ^ pow * 10 :=
      Nat.mul_le_mul_left _ (by omega)
    have h3 : (10 : Nat) ^ pow * 10 = 10 ^ (pow + 1) := by ring
    omega
  have c2 : 10 ^ pow * d ≤ MAX_VALUE := by omega
  have c3 : value + 10 ^ pow * d ≤ MAX_VALUE := by omega
  unfold hornerStep Uint.checked_pow Uint.checked_mul Uint.checked_add
  simp [c1, c2, c3]

theorem hornerRun_ok (l : List Nat) :
    ∀ pow value, (∀ d ∈ l, d < 10) → pow + l.length ≤ 77 → value < 10 ^ pow →
      hornerRun l pow value = some (value + lowVal pow l) := by
  induction l with
  | nil => intro pow value _ _ _; simp [hornerRun, lowVal]
  | cons d l ih =>
    intro pow value hd hlen hv
    have hd10 : d < 10 := hd d (List.mem_cons_self d l)
    have hstep := hornerStep_ok hd10 (by simp at hlen; omega) hv
    have hnext : value + 10 ^ pow * d < 10 ^ (pow + 1) := by
      have h2 : 10 ^ pow * (d + 1) ≤ 10 ^ pow * 10 :=
        Nat.mul_le_mul_left _ (by omega)
      have h3 : (10 : Nat) ^ pow * 10 = 10 ^ (pow + 1) := by ring
      have h4 : 10 ^ pow * d + 10 ^ pow = 10 ^ pow * (d + 1) := by ring
      omega
    simp only [hornerRun, hstep]
    rw [ih (pow + 1) (value + 10 ^ pow * d)
      (fun e he => hd e (List.mem_cons_of_mem d he))
      (by simp at hlen ⊢; omega) hnext]
    simp only [lowVal]
    have : 10 ^ pow * d = d * 10 ^ pow := Nat.mul_comm _ _
    congr 1
    omega

theorem filterMap_charToDigit_length (s : List Char) :
    (s.filterMap charToDigit?).length + (nonDigits s).length = s.length := by
  induction s with
  | nil => simp [nonDigits]
  | cons c cs ih =>
    by_cases h : c.isDigit <;>
      simp only [nonDigits, charToDigit?, List.filterMap_cons, List.filter_cons,
        h, List.length_cons, if_pos, if_neg, Bool.not_true, Bool.not_false,
        reduceIte] at * <;>
      simp_all <;> omega

theorem dot_mem_nonDigits (s : List Char) : '.' ∈ nonDigits s ↔ '.' ∈ s := by
  have h : (('.' : Char).isDigit : Bool) = false := by decide
  simp [nonDigits, List.mem_filter, h]

theorem dot_split (s : List Char) :
    (findDotIdx s = none ∧ '.' ∉ s ∧ fracTail s = []) ∨
    (∃ p, findDotIdx s = some p ∧ p < s.length ∧
      (fracTail s).length = s.length - p - 1 ∧ '.' ∈ s) := by
  induction s with
  | nil => left; simp [findDotIdx, fracTail]
  | cons c cs ih =>
    by_cases hc : c = '.'
    · right
      refine ⟨0, ?_, ?_, ?_, ?_⟩
      · simp [findDotIdx, hc]
      · simp
      · have : (c :: cs).dropWhile (fun x => x != '.') = c :: cs := by
          rw [List.dropWhile_cons_of_neg]
          simp [hc]
        simp [fracTail, this]
      · simp [hc]
    · have hdw : (c :: cs).dropWhile (fun x => x != '.') =
          cs.dropWhile (fun x => x != '.') := by
        rw [List.dropWhile_cons_of_pos]
        simp [hc]
      rcases ih with ⟨h1, h2, h3⟩ | ⟨p, h1, h2, h3, h4⟩
      · left
        refine ⟨?_, ?_, ?_⟩
        · simp [findDotIdx, hc, h1]
        · intro hmem
          rcases List.mem_cons.mp hmem with h | h
          · exact hc h.symm
          · exact h2 h
        · simp only [fracTail]
          rw [hdw]
          exact h3
      · right
        refine ⟨p + 1, ?_, ?_, ?_, ?_⟩
        · simp [findDotIdx, hc, h1]
        · simp; omega
        · have hft : fracTail (c :: cs) = fracTail cs := by
            simp only [fracTail]; rw [hdw]
          rw [hft, h3]
          simp only [List.length_cons]
          omega
        · simp [h4]

/-- Digits extracted by the parser are decimal digits. -/
theorem mem_filterMap_charToDigit_lt {s : List Char} {d : Nat}
    (h : d ∈ s.filterMap charToDigit?) : d < 10 := by
  rcases List.mem_filterMap.mp h with ⟨c, -, hc⟩
  exact charToDigit?_lt hc

/-- A well-formed numeric string has no decimal point exactly when its
non-digit characters are `[]`, and a single decimal point exactly when they
are `['.']`. -/
theorem nonDigits_nil_no_dot {s : List Char} (h : nonDigits s = []) :
    '.' ∉ s := by
  intro hdot
  have := (dot_mem_nonDigits s).mpr hdot
  rw [h] at this
  simp at this

theorem fromStr_scaleTooLarge_of (s : List Char)
    (hwf : nonDigits s = [] ∨ nonDigits s = ['.'])
    (hlen : 77 < (s.filterMap charToDigit?).length) :
    DenominatedAmount.fromStr s =
      .error (.ScaleTooLarge (s.filterMap charToDigit?).length 77) := by
  have hcount := filterMap_charToDigit_length s
  rcases hwf with hwf | hwf
  · have hnodot : '.' ∉ s := nonDigits_nil_no_dot hwf
    rcases dot_split s with ⟨hfind, -, -⟩ | ⟨p, -, -, -, hdot⟩
    · have hfm : (s.filterMap charToDigit?).length = s.length := by
        rw [hwf] at hcount; simpa using hcount
      simp only [DenominatedAmount.fromStr, hfind, Option.map_none']
      rw [if_neg (by simp [List.length_reverse, hfm]),
        if_pos (by simpa [List.length_reverse] using hlen)]
      simp [List.length_reverse]
    · exact absurd hdot hnodot
  · have hdot : '.' ∈ s := (dot_mem_nonDigits s).mp (by rw [hwf]; simp)
    rcases dot_split s with ⟨-, hnodot, -⟩ | ⟨p, hfind, hp, -, -⟩
    · exact absurd hdot hnodot
    · have hfm : (s.filterMap charToDigit?).length = s.length - 1 := by
        rw [hwf] at hcount; simp at hcount; omega
      simp only [DenominatedAmount.fromStr, hfind, Option.map_some']
      rw [if_neg (by simp [List.length_reverse, hfm]),
        if_pos (by simpa [List.length_reverse] using hlen)]
      simp [List.length_reverse]

theorem fromStr_ok_of (s : List Char)
    (hwf : nonDigits s = [] ∨ nonDigits s = ['.'])
    (hlen : (s.filterMap charToDigit?).length ≤ 77) :
    DenominatedAmount.fromStr s = .ok ⟨⟨digitsVal s⟩, (fracTail s).length⟩ := by
  have hcount := filterMap_charToDigit_length s
  have hhorner : hornerRun (s.filterMap charToDigit?).reverse 0 0 =
      some (digitsVal s) := by
    rw [hornerRun_ok (s.filterMap charToDigit?).reverse 0 0
      (fun d hd => mem_filterMap_charToDigit_lt (List.mem_reverse.mp hd))
      (by simpa [List.length_reverse] using hlen) (by norm_num)]
    rw [lowVal_reverse]
    simp [digitsVal]
  rcases hwf with hwf | hwf
  · have hnodot : '.' ∉ s := nonDigits_nil_no_dot hwf
    rcases dot_split s with ⟨hfind, -, htail⟩ | ⟨p, -, -, -, hdot⟩
    · have hfm : (s.filterMap charToDigit?).length = s.length := by
        rw [hwf] at hcount; simpa using hcount
      simp only [DenominatedAmount.fromStr, hfind, Option.map_none']
      rw [if_neg (by simp [List.length_reverse, hfm]),
        if_neg (by simpa [List.length_reverse] using hlen), hhorner]
      simp [htail]
    · exact absurd hdot hnodot
  · have hdot : '.' ∈ s := (dot_mem_nonDigits s).mp (by rw [hwf]; simp)
    rcases dot_split s with ⟨-, hnodot, -⟩ | ⟨p, hfind, hp, htail, -⟩
    · exact absurd hdot hnodot
    · have hfm : (s.filterMap charToDigit?).length = s.length - 1 := by
        rw [hwf] at hcount; simp at hcount; omega
      simp only [DenominatedAmount.fromStr, hfind, Option.map_some']
      rw [if_neg (by simp [List.length_reverse, hfm]),
        if_neg (by simpa [List.length_reverse] using hlen), hhorner]
      simp [htail]

theorem fromStr_notNumeric_of_bad (s : List Char)
    (hbad : ¬ (nonDigits s = [] ∨ nonDigits s = ['.'])) :
    DenominatedAmount.fromStr s = .error .NotNumeric := by
  have hcount := filterMap_charToDigit_length s
  push_neg at hbad
  obtain ⟨hne_nil, hne_dot⟩ := hbad
  have hnd1 : 1 ≤ (nonDigits s).length := by
    rcases Nat.eq_zero_or_pos (nonDigits s).length with h | h
    · exact absurd (List.length_eq_zero.mp h) hne_nil
    · exact h
  rcases dot_split s with ⟨hfind, hnodot, -⟩ | ⟨p, hfind, hp, -, hdot⟩
  · simp only [DenominatedAmount.fromStr, hfind, Option.map_none']
    rw [if_pos]
    left
    constructor
    · simp only [List.length_reverse]
      omega
    · trivial
  · have hdotnd : '.' ∈ nonDigits s := (dot_mem_nonDigits s).mpr hdot
    have hnd2 : (nonDigits s).length ≠ 1 := by
      intro h1
      obtain ⟨c, hc⟩ := List.length_eq_one.mp h1
      rw [hc] at hdotnd
      simp at hdotnd
      rw [← hdotnd] at hc
      exact hne_dot hc
    simp only [DenominatedAmount.fromStr, hfind, Option.map_some']
    rw [if_pos]
    right
    constructor
    · simp only [List.length_reverse]
      omega
    · simp

/-- C9 (amended): parsing fails with `NotNumeric` exactly when some character
is neither a digit nor the single permitted decimal point (a second point
included); when the characters are well formed, it fails with
`ScaleTooLarge`, carrying the actual digit count and the maximum 77, exactly
when the digit count exceeds 77; and with at most 77 well-formed digits it
always succeeds — the `InvalidRange` branch is unreachable, because 77
decimal digits always fit 256 bits — with the fractional digit count
becoming the result's denomination. -/
theorem parse_error_discrimination :
    (∀ s : List Char,
      DenominatedAmount.fromStr s = .error .NotNumeric ↔
        ¬ (nonDigits s = [] ∨ nonDigits s = ['.'])) ∧
    (∀ s : List Char, nonDigits s = [] ∨ nonDigits s = ['.'] →
      77 < (s.filterMap charToDigit?).length →
      DenominatedAmount.fromStr s =
        .error (.ScaleTooLarge (s.filterMap charToDigit?).length 77)) ∧
    (∀ s : List Char, nonDigits s = [] ∨ nonDigits s = ['.'] →
      (s.filterMap charToDigit?).length ≤ 77 →
      DenominatedAmount.fromStr s = .ok ⟨⟨digitsVal s⟩, (fracTail s).length⟩) := by
  refine ⟨?_, fromStr_scaleTooLarge_of, fromStr_ok_of⟩
  intro s
  constructor
  · intro h hwf
    by_cases hlen : 77 < (s.filterMap charToDigit?).length
    · rw [fromStr_scaleTooLarge_of s hwf hlen] at h
      simp at h
    · rw [fromStr_ok_of s hwf (Nat.le_of_not_lt hlen)] at h
      simp at h
  · exact fromStr_notNumeric_of_bad s

/-- Witness for C9: `"1.2"` parses to mantissa 12 at denomination 1, a
78-digit string fails with `ScaleTooLarge(78, 77)`, and `"1a"` fails with
`NotNumeric`. -/
theorem parse_error_discrimination_witness :
    DenominatedAmount.fromStr ['1', '.', '2'] = .ok ⟨⟨12⟩, 1⟩ ∧
    DenominatedAmount.fromStr (List.replicate 78 '1') =
      .error (.ScaleTooLarge 78 77) ∧
    DenominatedAmount.fromStr ['1', 'a'] = .error .NotNumeric := by
  refine ⟨?_, ?_, ?_⟩
  · have h := parse_error_discrimination.2.2 ['1', '.', '2'] (by decide) (by decide)
    rw [h]
    decide
  · have h := parse_error_discrimination.2.1 (List.replicate 78 '1')
      (by decide) (by decide)
    rw [h]
    decide
  · exact (parse_error_discrimination.1 ['1', 'a']).mpr (by decide)

set_option maxRecDepth 4000 in
/-- Counterexample for C9 as stated: the digit string of 78 nines does not
fit 256 bits, yet the parser reports `ScaleTooLarge(78, 77)`, not
`InvalidRange` — the 77-digit cap fires first, and 77 decimal digits always
fit 256 bits, so `InvalidRange` is unreachable. -/
theorem parse_invalid_range_unreachable :
    MAX_VALUE < digitsVal (List.replicate 78 '9') ∧
    DenominatedAmount.fromStr (List.replicate 78 '9') =
      .error (.ScaleTooLarge 78 77) := by
  constructor
  · decide
  · decide

theorem digitChar_isDigit {d : Nat} (hd : d < 10) :
    (Char.ofNat (48 + d)).isDigit = true := by
  interval_cases d <;> decide

theorem charToDigit?_digitChar {d : Nat} (hd : d < 10) :
    charToDigit? (Char.ofNat (48 + d)) = some d := by
  unfold charToDigit?
  interval_cases d <;> decide

theorem charToDigit?_of_isDigit {c : Char} (hc : c.isDigit = true) :
    charToDigit? c = some (c.toNat - 48) := by
  simp [charToDigit?, hc]

theorem charToDigit?_inv {c : Char} {d : Nat} (h : charToDigit? c = some d) :
    c = Char.ofNat (48 + d) ∧ c.isDigit = true := by
  unfold charToDigit? at h
  by_cases hc : c.isDigit
  · simp only [hc, if_pos, reduceIte, Option.some.injEq] at h
    have h48 : 48 ≤ c.toNat := by
      have hb := hc
      simp [Char.isDigit] at hb
      simpa [Char.le_def, Char.toNat] using hb.1
    refine ⟨?_, hc⟩
    rw [← h]
    have he : 48 + (c.toNat - 48) = c.toNat := by omega
    rw [he, Char.ofNat_toNat]
  · simp [hc] at h

theorem decimalReprGo_fuel (n : Nat) :
    ∀ f1 f2, n ≤ f1 → n ≤ f2 → decimalReprGo f1 n = decimalReprGo f2 n := by
  induction n using Nat.strong_induction_on with
  | _ n ih =>
    intro f1 f2 h1 h2
    by_cases hn : n < 10
    · have e : ∀ f, decimalReprGo f n = [Char.ofNat (48 + n)] := by
        intro f
        cases f with
        | zero => simp [decimalReprGo, Nat.mod_eq_of_lt hn]
        | succ g => simp [decimalReprGo, hn]
      rw [e f1, e f2]
    · have hn10 : 10 ≤ n := Nat.le_of_not_lt hn
      cases f1 with
      | zero => omega
      | succ g1 =>
        cases f2 with
        | zero => omega
        | succ g2 =>
          have hd : n / 10 < n := Nat.div_lt_self (by omega) (by norm_num)
          simp only [decimalReprGo, if_neg hn]
          rw [ih (n / 10) hd g1 g2 (by omega) (by omega)]

theorem decimalRepr_small {n : Nat} (hn : n < 10) :
    decimalRepr n = [Char.ofNat (48 + n)] := by
  unfold decimalRepr
  cases n with
  | zero => simp [decimalReprGo]
  | succ m => simp [decimalReprGo, hn]

theorem decimalRepr_step {n : Nat} (hn : 10 ≤ n) :
    decimalRepr n = decimalRepr (n / 10) ++ [Char.ofNat (48 + n % 10)] := by
  unfold decimalRepr
  cases n with
  | zero => omega
  | succ m =>
    have h1 : ¬ m + 1 < 10 := by omega
    simp only [decimalReprGo, if_neg h1]
    rw [decimalReprGo_fuel ((m + 1) / 10) m ((m + 1) / 10) (by omega) (le_refl _)]

theorem decVal_cons (d : Nat) (l : List Nat) :
    decVal (d :: l) = d * 10 ^ l.length + decVal l := by
  show List.foldl _ (0 * 10 + d) l = _
  rw [decVal_foldl l (0 * 10 + d)]
  ring

theorem decVal_append (u v : List Nat) :
    decVal (u ++ v) = decVal u * 10 ^ v.length + decVal v := by
  unfold decVal
  rw [List.foldl_append, decVal_foldl v]
  rfl

theorem decVal_singleton (d : Nat) : decVal [d] = d := by
  simp [decVal]

theorem decVal_lt {l : List Nat} (h : ∀ d ∈ l, d < 10) :
    decVal l < 10 ^ l.length := by
  have h1 := lowVal_add_pow_le l.reverse 0 (fun d hd => h d (List.mem_reverse.mp hd))
  rw [lowVal_reverse] at h1
  simp [List.length_reverse] at h1
  omega

theorem decVal_replicate_zero (k : Nat) (l : List Nat) :
    decVal (List.replicate k 0 ++ l) = decVal l := by
  rw [decVal_append]
  have hz : decVal (List.replicate k 0) = 0 := by
    induction k with
    | zero => rfl
    | succ m ih =>
      rw [List.replicate_succ, decVal_cons, ih]
      simp
  rw [hz]
  simp

theorem decimalRepr_isDigit (n : Nat) :
    ∀ c ∈ decimalRepr n, c.isDigit = true := by
  induction n using Nat.strong_induction_on with
  | _ n ih =>
    by_cases hn : n < 10
    · rw [decimalRepr_small hn]
      intro c hc
      simp at hc
      subst hc
      exact digitChar_isDigit hn
    · rw [decimalRepr_step (Nat.le_of_not_lt hn)]
      intro c hc
      rcases List.mem_append.mp hc with h | h
      · exact ih (n / 10) (Nat.div_lt_self (by omega) (by norm_num)) c h
      · simp at h
        subst h
        exact digitChar_isDigit (Nat.mod_lt _ (by norm_num))

theorem decimalRepr_val (n : Nat) :
    decVal ((decimalRepr n).filterMap charToDigit?) = n := by
  induction n using Nat.strong_induction_on with
  | _ n ih =>
    by_cases hn : n < 10
    · rw [decimalRepr_small hn]
      simp [List.filterMap_cons, charToDigit?_digitChar hn, decVal_singleton]
    · rw [decimalRepr_step (Nat.le_of_not_lt hn)]
      rw [List.filterMap_append]
      have h10 : n % 10 < 10 := Nat.mod_lt _ (by norm_num)
      have hone : List.filterMap charToDigit? [Char.ofNat (48 + n % 10)] =
          [n % 10] := by
        simp [List.filterMap_cons, charToDigit?_digitChar h10]
      rw [hone, decVal_append,
        ih (n / 10) (Nat.div_lt_self (by omega) (by norm_num)),
        decVal_singleton]
      simp
      omega

theorem decimalRepr_length_pos (n : Nat) : 1 ≤ (decimalRepr n).length := by
  by_cases hn : n < 10
  · rw [decimalRepr_small hn]; simp
  · rw [decimalRepr_step (Nat.le_of_not_lt hn)]; simp

theorem decimalRepr_val_lt (n : Nat) : n < 10 ^ (decimalRepr n).length := by
  induction n using Nat.strong_induction_on with
  | _ n ih =>
    by_cases hn : n < 10
    · rw [decimalRepr_small hn]
      simpa using hn
    · rw [decimalRepr_step (Nat.le_of_not_lt hn)]
      have h1 := ih (n / 10) (Nat.div_lt_self (by omega) (by norm_num))
      simp only [List.length_append, List.length_cons, List.length_nil]
      have h2 : (10 : Nat) ^ ((decimalRepr (n / 10)).length + (0 + 1)) =
          10 ^ (decimalRepr (n / 10)).length * 10 := by ring
      omega

theorem decimalRepr_length_le {n k : Nat} (hk : 1 ≤ k) (hn : n < 10 ^ k) :
    (decimalRepr n).length ≤ k := by
  induction n using Nat.strong_induction_on generalizing k with
  | _ n ih =>
    by_cases h10 : n < 10
    · rw [decimalRepr_small h10]
      simpa using hk
    · rw [decimalRepr_step (Nat.le_of_not_lt h10)]
      have hk2 : 2 ≤ k := by
        by_contra hc
        have : k = 1 := by omega
        subst this
        simp at hn
        omega
      have hdiv : n / 10 < 10 ^ (k - 1) := by
        rw [Nat.div_lt_iff_lt_mul (by norm_num : (0:Nat) < 10)]
        have : (10 : Nat) ^ (k - 1) * 10 = 10 ^ k := by
          rw [← pow_succ]
          congr 1
          omega
        omega
      have h1 := ih (n / 10) (Nat.div_lt_self (by omega) (by norm_num))
        (k := k - 1) (by omega) hdiv
      simp only [List.length_append, List.length_cons, List.length_nil]
      omega

theorem decimalRepr_val_ge {n : Nat} (hn : 1 ≤ n) :
    10 ^ ((decimalRepr n).length - 1) ≤ n := by
  induction n using Nat.strong_induction_on with
  | _ n ih =>
    by_cases h10 : n < 10
    · rw [decimalRepr_small h10]
      simpa using hn
    · rw [decimalRepr_step (Nat.le_of_not_lt h10)]
      have hpos := decimalRepr_length_pos (n / 10)
      have h1 := ih (n / 10) (Nat.div_lt_self (by omega) (by norm_num))
        (by omega)
      simp only [List.length_append, List.length_cons, List.length_nil]
      have h2 : (10 : Nat) ^ ((decimalRepr (n / 10)).length + (0 + 1) - 1) =
          10 ^ ((decimalRepr (n / 10)).length - 1) * 10 := by
        rw [← pow_succ]
        congr 1
        omega
      have h3 : 10 ^ ((decimalRepr (n / 10)).length - 1) * 10 ≤ (n / 10) * 10 :=
        Nat.mul_le_mul_right 10 h1
      have h4 : (n / 10) * 10 ≤ n := by omega
      omega

theorem isDigit_toNat_lt {c : Char} (hc : c.isDigit = true) : c.toNat - 48 < 10 :=
  charToDigit?_lt (charToDigit?_of_isDigit hc)

theorem filterMap_eq_map_of_digits (l : List Char)
    (h : ∀ c ∈ l, c.isDigit = true) :
    l.filterMap charToDigit? = l.map (fun c => c.toNat - 48) := by
  induction l with
  | nil => rfl
  | cons c cs ih =>
    rw [List.filterMap_cons, List.map_cons,
      charToDigit?_of_isDigit (h c (List.mem_cons_self c cs)),
      ih (fun e he => h e (List.mem_cons_of_mem c he))]

theorem digitsVal_cons {c : Char} {l : List Char} (hc : c.isDigit = true)
    (hl : ∀ e ∈ l, e.isDigit = true) :
    digitsVal (c :: l) = (c.toNat - 48) * 10 ^ l.length + digitsVal l := by
  unfold digitsVal
  have hall : ∀ e ∈ c :: l, e.isDigit = true := by
    intro e he
    rcases List.mem_cons.mp he with h | h
    · exact h ▸ hc
    · exact hl e h
  rw [filterMap_eq_map_of_digits _ hall, List.map_cons, decVal_cons,
    filterMap_eq_map_of_digits l hl]
  simp [List.length_map]

theorem digitsVal_lt {l : List Char} (h : ∀ c ∈ l, c.isDigit = true) :
    digitsVal l < 10 ^ l.length := by
  unfold digitsVal
  rw [filterMap_eq_map_of_digits l h]
  have hb : ∀ d ∈ l.map (fun c => c.toNat - 48), d < 10 := by
    intro d hd
    rcases List.mem_map.mp hd with ⟨c, hc, rfl⟩
    exact isDigit_toNat_lt (h c hc)
  have := decVal_lt hb
  simpa [List.length_map] using this

theorem mul_pow_add_inj {A B a b K : Nat} (hK : 0 < K) (ha : a < K)
    (hb : b < K) (h : A * K + a = B * K + b) : A = B ∧ a = b := by
  have h1 : (A * K + a) / K = A := by
    rw [Nat.mul_comm A K, Nat.mul_add_div hK, Nat.div_eq_of_lt ha]
    omega
  have h2 : (B * K + b) / K = B := by
    rw [Nat.mul_comm B K, Nat.mul_add_div hK, Nat.div_eq_of_lt hb]
    omega
  have hAB : A = B := by rw [← h1, ← h2, h]
  refine ⟨hAB, ?_⟩
  subst hAB
  omega

theorem digit_list_unique : ∀ u v : List Char,
    (∀ c ∈ u, c.isDigit = true) → (∀ c ∈ v, c.isDigit = true) →
    u.length = v.length → digitsVal u = digitsVal v → u = v := by
  intro u
  induction u with
  | nil =>
    intro v _ _ hlen _
    cases v with
    | nil => rfl
    | cons e es => simp at hlen
  | cons c cs ih =>
    intro v hu hv hlen hval
    cases v with
    | nil => simp at hlen
    | cons e es =>
      have hc : c.isDigit = true := hu c (List.mem_cons_self c cs)
      have he : e.isDigit = true := hv e (List.mem_cons_self e es)
      have hcs : ∀ x ∈ cs, x.isDigit = true :=
        fun x hx => hu x (List.mem_cons_of_mem c hx)
      have hes : ∀ x ∈ es, x.isDigit = true :=
        fun x hx => hv x (List.mem_cons_of_mem e hx)
      have hlen' : cs.length = es.length := by simpa using hlen
      rw [digitsVal_cons hc hcs, digitsVal_cons he hes, hlen'] at hval
      have hbound1 : digitsVal cs < 10 ^ es.length := hlen' ▸ digitsVal_lt hcs
      have hbound2 : digitsVal es < 10 ^ es.length := digitsVal_lt hes
      obtain ⟨hhead, htail⟩ := mul_pow_add_inj
        (Nat.pos_pow_of_pos _ (by norm_num)) hbound1 hbound2 hval
      have hce : c = e := by
        have hcv := charToDigit?_of_isDigit hc
        have hev := charToDigit?_of_isDigit he
        rw [hhead] at hcv
        obtain ⟨h1, -⟩ := charToDigit?_inv hcv
        obtain ⟨h2, -⟩ := charToDigit?_inv hev
        rw [h1]
        exact h2.symm
      rw [hce, ih es hcs hes hlen' htail]

theorem dropWhile_head_false {p : Char → Bool} :
    ∀ (l : List Char) {x : Char} {xs : List Char},
      l.dropWhile p = x :: xs → p x = false := by
  intro l
  induction l with
  | nil => intro x xs h; simp [List.dropWhile] at h
  | cons c cs ih =>
    intro x xs h
    by_cases hp : p c
    · rw [List.dropWhile_cons_of_pos hp] at h
      exact ih h
    · rw [List.dropWhile_cons_of_neg hp] at h
      obtain ⟨rfl, -⟩ := List.cons.inj h
      exact Bool.eq_false_iff.mpr hp

theorem filterMap_all_zero {u : List Char} (h : ∀ c ∈ u, c = '0') :
    u.filterMap charToDigit? = List.replicate u.length 0 := by
  induction u with
  | nil => rfl
  | cons c cs ih =>
    have hc : c = '0' := h c (List.mem_cons_self c cs)
    subst hc
    rw [List.filterMap_cons]
    have h0 : charToDigit? '0' = some 0 := by decide
    rw [h0, ih (fun e he => h e (List.mem_cons_of_mem _ he))]
    simp [List.replicate_succ]

theorem decimalRepr_digitsVal_cons {r : Char} {rs : List Char}
    (hd : ∀ c ∈ r :: rs, c.isDigit = true) (hr : r ≠ '0') :
    decimalRepr (digitsVal (r :: rs)) = r :: rs := by
  have hrdig : r.isDigit = true := hd r (List.mem_cons_self r rs)
  have hrs : ∀ x ∈ rs, x.isDigit = true :=
    fun x hx => hd x (List.mem_cons_of_mem r hx)
  have h48 : 48 ≤ r.toNat := by
    have hb := hrdig
    simp [Char.isDigit] at hb
    simpa [Char.le_def, Char.toNat] using hb.1
  have hr1 : 1 ≤ r.toNat - 48 := by
    rcases Nat.eq_zero_or_pos (r.toNat - 48) with h0 | h0
    · exfalso
      have he : r.toNat = 48 := by omega
      have : r = Char.ofNat 48 := by rw [← he, Char.ofNat_toNat]
      exact hr (by rw [this])
    · exact h0
  have hge : 10 ^ ((r :: rs).length - 1) ≤ digitsVal (r :: rs) := by
    rw [digitsVal_cons hrdig hrs]
    have h1 : 1 * 10 ^ rs.length ≤ (r.toNat - 48) * 10 ^ rs.length :=
      Nat.mul_le_mul_right _ hr1
    simp only [List.length_cons, Nat.add_sub_cancel, Nat.one_mul] at h1 ⊢
    omega
  have hlt : digitsVal (r :: rs) < 10 ^ (r :: rs).length := digitsVal_lt hd
  have hL1 : (decimalRepr (digitsVal (r :: rs))).length ≤ (r :: rs).length :=
    decimalRepr_length_le (by simp) hlt
  have hL2 : (r :: rs).length ≤ (decimalRepr (digitsVal (r :: rs))).length := by
    by_contra hcon
    push_neg at hcon
    have hm : 10 ^ (decimalRepr (digitsVal (r :: rs))).length ≤
        10 ^ ((r :: rs).length - 1) :=
      Nat.pow_le_pow_right (by norm_num) (by omega)
    have := decimalRepr_val_lt (digitsVal (r :: rs))
    omega
  exact digit_list_unique _ _ (decimalRepr_isDigit _) hd (by omega)
    (decimalRepr_val _)

theorem decimalRepr_digitsVal_strip {l : List Char}
    (hl : ∀ c ∈ l, c.isDigit = true) :
    decimalRepr (digitsVal l) = stripLeadingZeros l := by
  have hsplit := List.takeWhile_append_dropWhile
    (p := fun c => c == '0') (l := l)
  have hz : ∀ c ∈ l.takeWhile (fun c => c == '0'), c = '0' := by
    intro c hc
    have := List.mem_takeWhile_imp hc
    simpa using this
  have hval : digitsVal l = digitsVal (l.dropWhile (fun c => c == '0')) := by
    conv_lhs => rw [← hsplit]
    unfold digitsVal
    rw [List.filterMap_append, filterMap_all_zero hz, decVal_replicate_zero]
  cases hdw : l.dropWhile (fun c => c == '0') with
  | nil =>
    rw [hval, hdw]
    simp only [stripLeadingZeros, hdw]
    decide
  | cons r rs =>
    rw [hval, hdw]
    have hsub : ∀ c ∈ r :: rs, c.isDigit = true := by
      intro c hc
      apply hl
      rw [← hdw] at hc
      exact (List.dropWhile_sublist _).mem hc
    have hr0 : r ≠ '0' := by
      have hh := dropWhile_head_false l hdw
      simpa using hh
    rw [decimalRepr_digitsVal_cons hsub hr0]
    simp [stripLeadingZeros, hdw]

theorem decimalRepr_split (p : Nat) :
    ∀ q r, 1 ≤ p → 1 ≤ q → r < 10 ^ p →
      decimalRepr (q * 10 ^ p + r) =
        decimalRepr q ++
          (List.replicate (p - (decimalRepr r).length) '0' ++ decimalRepr r) := by
  induction p with
  | zero => intro q r hp _ _; omega
  | succ p ih =>
    intro q r _ hq hr
    by_cases hp0 : p = 0
    · subst hp0
      have hr10 : r < 10 := by simpa using hr
      have hn : 10 ≤ q * 10 ^ 1 + r := by
        have h1 : 10 * 1 ≤ 10 * q := Nat.mul_le_mul_left 10 hq
        have h2 : q * 10 ^ 1 = 10 * q := by ring
        omega
      have hdiv : (q * 10 ^ 1 + r) / 10 = q := by
        have hb : q * 10 ^ 1 + r = 10 * q + r := by ring
        rw [hb, Nat.mul_add_div (by norm_num), Nat.div_eq_of_lt hr10]
        omega
      have hmod : (q * 10 ^ 1 + r) % 10 = r := by
        have hb : q * 10 ^ 1 + r = r + q * 10 := by ring
        rw [hb, Nat.add_mul_mod_self_right, Nat.mod_eq_of_lt hr10]
      rw [decimalRepr_step hn, hdiv, hmod, decimalRepr_small hr10]
      simp
    · have hp1 : 1 ≤ p := Nat.pos_of_ne_zero hp0
      have h10p : (10 : Nat) ^ (p + 1) = 10 ^ p * 10 := pow_succ 10 p
      have hn : 10 ≤ q * 10 ^ (p + 1) + r := by
        have h1 : (10 : Nat) ≤ 10 ^ (p + 1) := by
          calc (10 : Nat) = 10 ^ 1 := (pow_one 10).symm
          _ ≤ 10 ^ (p + 1) := Nat.pow_le_pow_right (by norm_num) (by omega)
        have h2 : 10 ^ (p + 1) * 1 ≤ 10 ^ (p + 1) * q :=
          Nat.mul_le_mul_left _ hq
        have h3 : q * 10 ^ (p + 1) = 10 ^ (p + 1) * q := Nat.mul_comm _ _
        omega
      have hdiv : (q * 10 ^ (p + 1) + r) / 10 = q * 10 ^ p + r / 10 := by
        have hb : q * 10 ^ (p + 1) + r = 10 * (q * 10 ^ p) + r := by
          rw [h10p]; ring
        rw [hb, Nat.mul_add_div (by norm_num)]
      have hmod : (q * 10 ^ (p + 1) + r) % 10 = r % 10 := by
        have hb : q * 10 ^ (p + 1) + r = r + (q * 10 ^ p) * 10 := by
          rw [h10p]; ring
        rw [hb, Nat.add_mul_mod_self_right]
      have hrdiv : r / 10 < 10 ^ p := by
        rw [Nat.div_lt_iff_lt_mul (by norm_num : (0:Nat) < 10)]
        omega
      have ihr := ih q (r / 10) hp1 hq hrdiv
      rw [decimalRepr_step hn, hdiv, hmod, ihr]
      by_cases hr10 : r < 10
      · have hr0 : r / 10 = 0 := Nat.div_eq_of_lt hr10
        have hd0 : decimalRepr 0 = ['0'] := by decide
        have hmr : r % 10 = r := Nat.mod_eq_of_lt hr10
        rw [hr0, hd0, hmr, decimalRepr_small hr10]
        have hrep : List.replicate (p - 1) '0' ++ ['0'] = List.replicate p '0' := by
          have hp' : p = (p - 1) + 1 := by omega
          rw [hp', List.replicate_succ']
          simp
        simp only [List.length_cons, List.length_nil, Nat.zero_add,
          Nat.add_sub_cancel]
        rw [← hrep]
        simp [List.append_assoc]
      · have hstep := decimalRepr_step (Nat.le_of_not_lt hr10)
        rw [hstep]
        simp only [List.length_append, List.length_cons, List.length_nil]
        have hL : (decimalRepr (r / 10)).length ≤ p :=
          decimalRepr_length_le hp1 hrdiv
        have he : p + 1 - ((decimalRepr (r / 10)).length + (0 + 1)) =
            p - (decimalRepr (r / 10)).length := by omega
        rw [he]
        simp [List.append_assoc]

theorem nonDigits_of_digits {l : List Char} (h : ∀ c ∈ l, c.isDigit = true) :
    nonDigits l = [] :=
  List.filter_eq_nil_iff.mpr (by intro c hc; simp [h c hc])

theorem nonDigits_decimalRepr (n : Nat) : nonDigits (decimalRepr n) = [] :=
  nonDigits_of_digits (decimalRepr_isDigit n)

theorem digitsVal_decimalRepr (n : Nat) : digitsVal (decimalRepr n) = n :=
  decimalRepr_val n

theorem dot_not_mem_decimalRepr (n : Nat) : '.' ∉ decimalRepr n := by
  intro h
  have := decimalRepr_isDigit n '.' h
  exact absurd this (by decide)

theorem digit_ne_dot {c : Char} (h : c.isDigit = true) : c ≠ '.' := by
  intro he
  subst he
  exact absurd h (by decide)

theorem nonDigits_dot_mid {u v : List Char} (hu : ∀ c ∈ u, c.isDigit = true)
    (hv : ∀ c ∈ v, c.isDigit = true) :
    nonDigits (u ++ '.' :: v) = ['.'] := by
  unfold nonDigits
  rw [List.filter_append, List.filter_cons]
  have h1 : u.filter (fun c => !c.isDigit) = [] := nonDigits_of_digits hu
  have h2 : v.filter (fun c => !c.isDigit) = [] := nonDigits_of_digits hv
  rw [h1, h2]
  simp

theorem digitsVal_dot_mid (u v : List Char) :
    digitsVal (u ++ '.' :: v) = digitsVal (u ++ v) := by
  unfold digitsVal
  rw [List.filterMap_append, List.filterMap_append, List.filterMap_cons]
  have h : charToDigit? '.' = none := by decide
  rw [h]

theorem dropWhile_no_dot :
    ∀ u : List Char, (∀ c ∈ u, c ≠ '.') → ∀ v : List Char,
      (u ++ '.' :: v).dropWhile (fun c => c != '.') = '.' :: v := by
  intro u
  induction u with
  | nil =>
    intro _ v
    rw [List.nil_append, List.dropWhile_cons_of_neg]
    simp
  | cons c cs ih =>
    intro h v
    rw [List.cons_append, List.dropWhile_cons_of_pos]
    · exact ih (fun e he => h e (List.mem_cons_of_mem c he)) v
    · simp [h c (List.mem_cons_self c cs)]

theorem fracTail_dot_mid {u : List Char} (hu : ∀ c ∈ u, c ≠ '.')
    (v : List Char) : fracTail (u ++ '.' :: v) = v := by
  unfold fracTail
  rw [dropWhile_no_dot u hu v]
  simp

/-- Round trip, parse after print: `parse(to_string_precise(x)) = x`
whenever the precise string has at most 77 digits. -/
theorem roundtrip_parse_print (x : DenominatedAmount)
    (hdig : ((DenominatedAmount.to_string_precise x).filterMap
      charToDigit?).length ≤ 77) :
    DenominatedAmount.fromStr (DenominatedAmount.to_string_precise x) =
      .ok x := by
  obtain ⟨⟨n⟩, denom⟩ := x
  by_cases hd0 : denom = 0
  · subst hd0
    have hs : DenominatedAmount.to_string_precise ⟨⟨n⟩, 0⟩ = decimalRepr n := by
      simp [DenominatedAmount.to_string_precise]
    rw [hs] at hdig ⊢
    rw [fromStr_ok_of _ (Or.inl (nonDigits_decimalRepr n)) hdig]
    have hft : fracTail (decimalRepr n) = [] := by
      rcases dot_split (decimalRepr n) with ⟨-, -, h⟩ | ⟨p, -, -, -, hdot⟩
      · exact h
      · exact absurd hdot (dot_not_mem_decimalRepr n)
    rw [digitsVal_decimalRepr n, hft]
    simp
  · by_cases hlen : denom < (decimalRepr n).length
    · have hs : DenominatedAmount.to_string_precise ⟨⟨n⟩, denom⟩ =
          (decimalRepr n).take ((decimalRepr n).length - denom) ++
            '.' :: (decimalRepr n).drop ((decimalRepr n).length - denom) := by
        simp [DenominatedAmount.to_string_precise, hd0, hlen]
    
      have hu : ∀ c ∈ (decimalRepr n).take ((decimalRepr n).length - denom),
          c.isDigit = true :=
        fun c hc => decimalRepr_isDigit n c ((List.take_sublist _ _).subset hc)
      have hv : ∀ c ∈ (decimalRepr n).drop ((decimalRepr n).length - denom),
          c.isDigit = true :=
        fun c hc => decimalRepr_isDigit n c ((List.drop_sublist _ _).subset hc)
      rw [hs] at hdig ⊢
      rw [fromStr_ok_of _ (Or.inr (nonDigits_dot_mid hu hv)) hdig]
      rw [digitsVal_dot_mid, List.take_append_drop, digitsVal_decimalRepr n]
      rw [fracTail_dot_mid (fun c hc => digit_ne_dot (hu c hc)) _]
      rw [List.length_drop]
      have he : (decimalRepr n).length - ((decimalRepr n).length - denom) =
          denom := Nat.sub_sub_self (Nat.le_of_lt hlen)
      rw [he]
    · have hge : (decimalRepr n).length ≤ denom := Nat.le_of_not_lt hlen
      have hs : DenominatedAmount.to_string_precise ⟨⟨n⟩, denom⟩ =
          '0' :: '.' :: (List.replicate (denom - (decimalRepr n).length) '0' ++
            decimalRepr n) := by
        simp [DenominatedAmount.to_string_precise, hd0, hlen]
      rw [hs] at hdig ⊢
      have hwf : nonDigits ('0' :: '.' ::
          (List.replicate (denom - (decimalRepr n).length) '0' ++
            decimalRepr n)) = ['.'] := by
        have := nonDigits_dot_mid (u := ['0'])
          (v := List.replicate (denom - (decimalRepr n).length) '0' ++
            decimalRepr n) (by intro c hc; simp at hc; subst hc; decide)
          (by
            intro c hc
            rcases List.mem_append.mp hc with h | h
            · have : c = '0' := List.eq_of_mem_replicate h
              subst this; decide
            · exact decimalRepr_isDigit n c h)
        simpa using this
      rw [fromStr_ok_of _ (Or.inr hwf) hdig]
      have hval : digitsVal ('0' :: '.' ::
          (List.replicate (denom - (decimalRepr n).length) '0' ++
            decimalRepr n)) = n := by
        have h1 := digitsVal_dot_mid (u := ['0'])
          (v := List.replicate (denom - (decimalRepr n).length) '0' ++
            decimalRepr n)
        simp only [List.cons_append, List.nil_append] at h1 ⊢
        rw [h1]
        unfold digitsVal
        rw [List.filterMap_cons]
        have h0 : charToDigit? '0' = some 0 := by decide
        rw [h0, List.filterMap_append,
          filterMap_all_zero (fun c hc => List.eq_of_mem_replicate hc)]
        rw [decVal_cons, decVal_replicate_zero]
        have := decimalRepr_val n
        unfold digitsVal at *
        simp
        omega
      have hft : fracTail ('0' :: '.' ::
          (List.replicate (denom - (decimalRepr n).length) '0' ++
            decimalRepr n)) =
          List.replicate (denom - (decimalRepr n).length) '0' ++
            decimalRepr n := by
        have := fracTail_dot_mid (u := ['0'])
          (by intro c hc; simp at hc; subst hc; decide)
          (List.replicate (denom - (decimalRepr n).length) '0' ++ decimalRepr n)
        simpa using this
      rw [hval, hft]
      have hlen2 : (List.replicate (denom - (decimalRepr n).length) '0' ++
          decimalRepr n).length = denom := by
        simp [List.length_append, List.length_replicate]
        omega
      rw [hlen2]

theorem fromStr_ok_inv {s : List Char} {d : DenominatedAmount}
    (h : DenominatedAmount.fromStr s = .ok d) :
    (nonDigits s = [] ∨ nonDigits s = ['.']) ∧
    (s.filterMap charToDigit?).length ≤ 77 ∧
    d = ⟨⟨digitsVal s⟩, (fracTail s).length⟩ := by
  by_cases hwf : nonDigits s = [] ∨ nonDigits s = ['.']
  · by_cases hlen : 77 < (s.filterMap charToDigit?).length
    · rw [fromStr_scaleTooLarge_of s hwf hlen] at h
      simp at h
    · rw [fromStr_ok_of s hwf (Nat.le_of_not_lt hlen)] at h
      exact ⟨hwf, Nat.le_of_not_lt hlen, (Except.ok.inj h).symm⟩
  · rw [fromStr_notNumeric_of_bad s hwf] at h
    simp at h

theorem findDotIdx_split :
    ∀ (s : List Char) (p : Nat), findDotIdx s = some p →
      s = s.take p ++ '.' :: s.drop (p + 1) ∧ '.' ∉ s.take p ∧
        (s.take p).length = p := by
  intro s
  induction s with
  | nil => intro p h; simp [findDotIdx] at h
  | cons c cs ih =>
    intro p h
    by_cases hc : c = '.'
    · subst hc
      simp [findDotIdx] at h
      subst h
      simp
    · simp [findDotIdx, hc] at h
      obtain ⟨q, hq, hpq⟩ := h
      subst hpq
      obtain ⟨h1, h2, h3⟩ := ih q hq
      refine ⟨?_, ?_, ?_⟩
      · rw [List.take_succ_cons, List.drop_succ_cons, List.cons_append]
        exact congrArg (List.cons c) h1
      · rw [List.take_succ_cons]
        intro hm
        rcases List.mem_cons.mp hm with h | h
        · exact hc h.symm
        · exact h2 h
      · rw [List.take_succ_cons]
        simp [h3]

theorem digits_of_nonDigits_nil {l : List Char} (h : nonDigits l = []) :
    ∀ c ∈ l, c.isDigit = true := by
  intro c hc
  have := List.filter_eq_nil_iff.mp h c hc
  simpa using this

theorem digitsVal_zero_all_zero :
    ∀ u : List Char, (∀ c ∈ u, c.isDigit = true) → digitsVal u = 0 →
      ∀ c ∈ u, c = '0' := by
  intro u
  induction u with
  | nil => intro _ _ c hc; simp at hc
  | cons e es ih =>
    intro hd hz c hc
    have he : e.isDigit = true := hd e (List.mem_cons_self e es)
    have hes : ∀ x ∈ es, x.isDigit = true :=
      fun x hx => hd x (List.mem_cons_of_mem e hx)
    rw [digitsVal_cons he hes] at hz
    obtain ⟨hz1, hz2⟩ := Nat.add_eq_zero.mp hz
    have he0 : e.toNat - 48 = 0 := by
      rcases Nat.mul_eq_zero.mp hz1 with h | h
      · exact h
      · have h10 : 0 < (10 : Nat) ^ es.length :=
          Nat.pos_pow_of_pos _ (by norm_num)
        omega
    rcases List.mem_cons.mp hc with hce | hce
    · subst hce
      have hv := charToDigit?_of_isDigit he
      rw [he0] at hv
      obtain ⟨h1, -⟩ := charToDigit?_inv hv
      rw [h1]
    · exact ih hes hz2 c hce

theorem stripLeadingZeros_all_zero {u : List Char} (h : ∀ c ∈ u, c = '0') :
    stripLeadingZeros u = ['0'] := by
  unfold stripLeadingZeros
  have hdw : u.dropWhile (fun c => c == '0') = [] := by
    rw [List.dropWhile_eq_nil_iff]
    intro x hx
    simp [h x hx]
  rw [hdw]

theorem padded_repr_eq {v : List Char} (hvd : ∀ c ∈ v, c.isDigit = true)
    (hne : 1 ≤ v.length) :
    List.replicate (v.length - (decimalRepr (digitsVal v)).length) '0' ++
      decimalRepr (digitsVal v) = v := by
  have hrlt : digitsVal v < 10 ^ v.length := digitsVal_lt hvd
  have hlenle : (decimalRepr (digitsVal v)).length ≤ v.length :=
    decimalRepr_length_le hne hrlt
  apply digit_list_unique
  · intro c hc
    rcases List.mem_append.mp hc with h | h
    · have : c = '0' := List.eq_of_mem_replicate h
      subst this; decide
    · exact decimalRepr_isDigit _ c h
  · exact hvd
  · simp only [List.length_append, List.length_replicate]
    omega
  · show digitsVal _ = digitsVal v
    unfold digitsVal
    rw [List.filterMap_append,
      filterMap_all_zero (fun c hc => List.eq_of_mem_replicate hc),
      decVal_replicate_zero]
    exact decimalRepr_val (digitsVal v)

/-- Round trip, print after parse: for every accepted string `s`,
`to_string_precise(parse(s))` is `s` up to zero-padding normalization. -/
theorem roundtrip_print_parse {s : List Char} {d : DenominatedAmount}
    (h : DenominatedAmount.fromStr s = .ok d) :
    DenominatedAmount.to_string_precise d = normalizePadding s := by
  obtain ⟨hwf, hlen, rfl⟩ := fromStr_ok_inv h
  rcases hwf with hwf | hwf
  · have hnodot : '.' ∉ s := nonDigits_nil_no_dot hwf
    have hdigits : ∀ c ∈ s, c.isDigit = true := digits_of_nonDigits_nil hwf
    rcases dot_split s with ⟨hfind, -, htail⟩ | ⟨p, -, -, -, hdot⟩
    swap
    · exact absurd hdot hnodot
    rw [htail]
    have hts : DenominatedAmount.to_string_precise
        ⟨⟨digitsVal s⟩, ([] : List Char).length⟩ = decimalRepr (digitsVal s) := by
      simp [DenominatedAmount.to_string_precise]
    rw [hts]
    unfold normalizePadding
    rw [hfind]
    exact decimalRepr_digitsVal_strip hdigits
  · have hdot : '.' ∈ s := (dot_mem_nonDigits s).mp (by rw [hwf]; simp)
    rcases dot_split s with ⟨-, hnodot, -⟩ | ⟨p, hfind, hp, -, -⟩
    · exact absurd hdot hnodot
    obtain ⟨hsplit, hnodotu, hlenu⟩ := findDotIdx_split s p hfind
    have hndsplit : nonDigits (s.take p) ++ '.' :: nonDigits (s.drop (p + 1)) =
        ['.'] := by
      have hstep : nonDigits s =
          nonDigits (s.take p) ++ '.' :: nonDigits (s.drop (p + 1)) := by
        conv_lhs => rw [hsplit]
        unfold nonDigits
        rw [List.filter_append, List.filter_cons]
        norm_num
        decide
      rw [← hstep, hwf]
    have hnd_uv : nonDigits (s.take p) = [] ∧
        nonDigits (s.drop (p + 1)) = [] := by
      cases hcu : nonDigits (s.take p) with
      | nil =>
        rw [hcu] at hndsplit
        simp only [List.nil_append, List.cons.injEq] at hndsplit
        exact ⟨rfl, hndsplit.2⟩
      | cons x xs =>
        exfalso
        rw [hcu] at hndsplit
        have hl := congrArg List.length hndsplit
        simp only [List.length_append, List.length_cons, List.length_nil,
          List.cons_append] at hl
        omega
    have hnd_u : nonDigits (s.take p) = [] := hnd_uv.1
    have hnd_v : nonDigits (s.drop (p + 1)) = [] := hnd_uv.2
    have hud : ∀ c ∈ s.take p, c.isDigit = true := digits_of_nonDigits_nil hnd_u
    have hvd : ∀ c ∈ s.drop (p + 1), c.isDigit = true :=
      digits_of_nonDigits_nil hnd_v
    have hft : fracTail s = s.drop (p + 1) := by
      conv_lhs => rw [hsplit]
      exact fracTail_dot_mid (fun c hc he => hnodotu (he ▸ hc)) _
    have hval : digitsVal s =
        digitsVal (s.take p) * 10 ^ (s.drop (p + 1)).length +
          digitsVal (s.drop (p + 1)) := by
      conv_lhs => rw [hsplit]
      rw [digitsVal_dot_mid]
      unfold digitsVal
      rw [List.filterMap_append, decVal_append,
        filterMap_eq_map_of_digits _ hvd]
      simp [List.length_map]
    have hnorm : normalizePadding s =
        (if (s.drop (p + 1)).isEmpty then stripLeadingZeros (s.take p)
         else stripLeadingZeros (s.take p) ++ '.' :: s.drop (p + 1)) := by
      unfold normalizePadding
      rw [hfind]
    rw [hft, hnorm]
    by_cases hvnil : s.drop (p + 1) = []
    · rw [hvnil]
      simp only [List.isEmpty_nil, if_pos, reduceIte, List.length_nil]
      have hv0 : digitsVal s = digitsVal (s.take p) := by
        rw [hval, hvnil]
        simp [digitsVal, decVal]
      have hts : DenominatedAmount.to_string_precise
          ⟨⟨digitsVal s⟩, 0⟩ = decimalRepr (digitsVal s) := by
        simp [DenominatedAmount.to_string_precise]
      rw [hts, hv0]
      exact decimalRepr_digitsVal_strip hud
    · have hvpos : 1 ≤ (s.drop (p + 1)).length := by
        rcases Nat.eq_zero_or_pos (s.drop (p + 1)).length with h0 | h0
        · exact absurd (List.length_eq_zero.mp h0) hvnil
        · exact h0
      have hvne : (s.drop (p + 1)).isEmpty = false := by
        cases hcase : s.drop (p + 1) with
        | nil => exact absurd hcase hvnil
        | cons a as => rfl
      rw [hvne]
      simp only [Bool.false_eq_true, reduceIte]
      by_cases hq : digitsVal (s.take p) = 0
      · have hzeros : ∀ c ∈ s.take p, c = '0' :=
          digitsVal_zero_all_zero _ hud hq
        have hvv : digitsVal s = digitsVal (s.drop (p + 1)) := by
          rw [hval, hq]
          simp
        have hnlt : digitsVal s < 10 ^ (s.drop (p + 1)).length := by
          rw [hvv]
          exact digitsVal_lt hvd
        have hlenle : (decimalRepr (digitsVal s)).length ≤
            (s.drop (p + 1)).length := decimalRepr_length_le hvpos hnlt
        have hts : DenominatedAmount.to_string_precise
            ⟨⟨digitsVal s⟩, (s.drop (p + 1)).length⟩ =
            '0' :: '.' ::
              (List.replicate
                ((s.drop (p + 1)).length - (decimalRepr (digitsVal s)).length)
                '0' ++ decimalRepr (digitsVal s)) := by
          have hc1 : ¬ (s.drop (p + 1)).length = 0 := by omega
          have hc2 : ¬ (s.drop (p + 1)).length <
              (decimalRepr (digitsVal s)).length := by omega
          simp only [DenominatedAmount.to_string_precise]
          rw [if_neg hc1, if_neg hc2]
        rw [hts, stripLeadingZeros_all_zero hzeros]
        have hpad := padded_repr_eq hvd hvpos
        rw [hvv]
        rw [hpad]
        rfl
      · have hq1 : 1 ≤ digitsVal (s.take p) := Nat.pos_of_ne_zero hq
        have hrlt : digitsVal (s.drop (p + 1)) < 10 ^ (s.drop (p + 1)).length :=
          digitsVal_lt hvd
        have hsplitn := decimalRepr_split (s.drop (p + 1)).length
          (digitsVal (s.take p)) (digitsVal (s.drop (p + 1))) hvpos hq1 hrlt
        rw [← hval] at hsplitn
        have hLrle : (decimalRepr (digitsVal (s.drop (p + 1)))).length ≤
            (s.drop (p + 1)).length := decimalRepr_length_le hvpos hrlt
        have hLtot : (decimalRepr (digitsVal s)).length =
            (decimalRepr (digitsVal (s.take p))).length +
              (s.drop (p + 1)).length := by
          rw [hsplitn]
          simp only [List.length_append, List.length_replicate]
          omega
        have hql : 1 ≤ (decimalRepr (digitsVal (s.take p))).length :=
          decimalRepr_length_pos _
        have hc2 : (s.drop (p + 1)).length <
            (decimalRepr (digitsVal s)).length := by omega
        have hc1 : ¬ (s.drop (p + 1)).length = 0 := by omega
        have hts : DenominatedAmount.to_string_precise
            ⟨⟨digitsVal s⟩, (s.drop (p + 1)).length⟩ =
            (decimalRepr (digitsVal s)).take
                ((decimalRepr (digitsVal s)).length - (s.drop (p + 1)).length)
              ++ '.' :: (decimalRepr (digitsVal s)).drop
                ((decimalRepr (digitsVal s)).length - (s.drop (p + 1)).length) := by
          simp only [DenominatedAmount.to_string_precise]
          rw [if_neg hc1, if_pos hc2]
        have hdiff : (decimalRepr (digitsVal s)).length -
            (s.drop (p + 1)).length =
            (decimalRepr (digitsVal (s.take p))).length := by omega
        have htake : (decimalRepr (digitsVal s)).take
            ((decimalRepr (digitsVal (s.take p))).length) =
            decimalRepr (digitsVal (s.take p)) := by
          rw [hsplitn]
          exact List.take_left' rfl
        have hdrop : (decimalRepr (digitsVal s)).drop
            ((decimalRepr (digitsVal (s.take p))).length) =
            List.replicate
              ((s.drop (p + 1)).length -
                (decimalRepr (digitsVal (s.drop (p + 1)))).length) '0' ++
              decimalRepr (digitsVal (s.drop (p + 1))) := by
          rw [hsplitn]
          exact List.drop_left' rfl
        rw [hts, hdiff, htake, hdrop, padded_repr_eq hvd hvpos,
          decimalRepr_digitsVal_strip hud]

/-- C3 (amended): `parse(to_string_precise(x))` succeeds and returns `x`
structurally whenever the precise string has at most 77 digits (beyond
that the parser's 77-digit cap rejects the string, as the counterexample
shows); and for every decimal string the parser accepts,
`to_string_precise(parse(s))` equals `s` up to zero-padding
normalization. -/
theorem string_roundtrip :
    (∀ x : DenominatedAmount,
      ((DenominatedAmount.to_string_precise x).filterMap
        charToDigit?).length ≤ 77 →
      DenominatedAmount.fromStr (DenominatedAmount.to_string_precise x) =
        .ok x) ∧
    (∀ (s : List Char) (d : DenominatedAmount),
      DenominatedAmount.fromStr s = .ok d →
      DenominatedAmount.to_string_precise d = normalizePadding s) :=
  ⟨roundtrip_parse_print, fun _ _ h => roundtrip_print_parse h⟩

set_option maxRecDepth 8000 in
/-- Counterexample for C3 as stated: the maximal 256-bit magnitude prints as
78 digits, which the parser rejects with `ScaleTooLarge(78, 77)` instead of
round-tripping. -/
theorem string_roundtrip_counterexample :
    DenominatedAmount.fromStr
        (DenominatedAmount.to_string_precise ⟨⟨2 ^ 256 - 1⟩, 0⟩) =
      .error (.ScaleTooLarge 78 77) := by
  decide

/-- Witness for C3 at `x = DenominatedAmount(1120, denom 3)` (precise string
`"1.120"`) and at the accepted string `"01.50"`. -/
theorem string_roundtrip_witness :
    DenominatedAmount.fromStr
        (DenominatedAmount.to_string_precise ⟨⟨1120⟩, 3⟩) = .ok ⟨⟨1120⟩, 3⟩ ∧
    DenominatedAmount.to_string_precise ⟨⟨150⟩, 2⟩ =
      normalizePadding ['0', '1', '.', '5', '0'] := by
  constructor
  · exact string_roundtrip.1 ⟨⟨1120⟩, 3⟩ (by decide)
  · exact string_roundtrip.2 ['0', '1', '.', '5', '0'] ⟨⟨150⟩, 2⟩ (by decide)

/-- C5 evidence (code bug): on a parser-rejected string, `Amount`'s
`Deserialize` impl `unwrap`s the parse result and panics — an unrecoverable
fault, not the recoverable rejection the spec requires — while
`DenominatedAmount`'s impl correctly surfaces a recoverable error. -/
theorem amount_deserialize_panics_on_rejected_input :
    DenominatedAmount.fromStr ['1', 'a'] = .error .NotNumeric ∧
    Amount.deserializeFromStr ['1', 'a'] = .panicked ∧
    DenominatedAmount.deserializeFromStr ['1', 'a'] = .err .NotNumeric := by
  decide

/-- C10: deserializing an `Amount` from any string the `DenominatedAmount`
parser accepts succeeds and returns exactly the parsed mantissa, with the
scale (the parsed denomination) silently discarded; in particular the
well-formed decimal string `"1.5"` parses to mantissa 15 at denomination 1,
so it deserializes to the `Amount` with raw magnitude 15 — not to a
rejection and not to an amount of one and a half units. -/
theorem amount_deserialize_discards_scale :
    (∀ (s : List Char) (d : DenominatedAmount),
        DenominatedAmount.fromStr s = .ok d →
        Amount.deserializeFromStr s = .ok d.amount) ∧
    DenominatedAmount.fromStr ['1', '.', '5'] = .ok ⟨⟨15⟩, 1⟩ := by
  refine ⟨?_, by decide⟩
  intro s d h
  unfold Amount.deserializeFromStr
  rw [h]

/-- C10 witness: the universal scale-discarding statement applied at the
concrete accepted input `"1.5"`. -/
theorem amount_deserialize_discards_scale_witness :
    Amount.deserializeFromStr ['1', '.', '5'] = .ok ⟨15⟩ :=
  amount_deserialize_discards_scale.1 ['1', '.', '5'] ⟨⟨15⟩, 1⟩ (by decide)

theorem beDigits_length (B : Nat) : ∀ L n, (beDigits B L n).length = L := by
  intro L
  induction L with
  | zero => intro n; rfl
  | succ L ih => intro n; simp [beDigits, ih]

theorem beDigits_lt (B : Nat) (hB : 0 < B) :
    ∀ L n d, d ∈ beDigits B L n → d < B := by
  intro L
  induction L with
  | zero => intro n d hd; simp [beDigits] at hd
  | succ L ih =>
    intro n d hd
    rcases List.mem_cons.mp hd with h | h
    · subst h
      exact Nat.mod_lt _ hB
    · exact ih _ d h

theorem beDigits_mod (B : Nat) : ∀ L n, beDigits B L (n % B ^ L) = beDigits B L n := by
  intro L
  cases L with
  | zero => intro n; rfl
  | succ L =>
    intro n
    show beDigits B (L + 1) (n % B ^ (L + 1)) = beDigits B (L + 1) n
    have h1 : n % B ^ (L + 1) / B ^ L = n / B ^ L % B := by
      rw [pow_succ]
      exact Nat.mod_mul_right_div_self n (B ^ L) B
    have h2 : n % B ^ (L + 1) % B ^ L = n % B ^ L :=
      Nat.mod_mod_of_dvd n (pow_dvd_pow B (Nat.le_succ L))
    simp only [beDigits, h2]
    congr 1
    rw [h1, Nat.mod_mod_of_dvd _ (dvd_refl B)]

theorem beDigits_split (B : Nat) (j : Nat) :
    ∀ l n, beDigits B (j + l) n =
      beDigits B j (n / B ^ l) ++ beDigits B l (n % B ^ l) := by
  induction j with
  | zero =>
    intro l n
    rw [Nat.zero_add]
    show beDigits B l n = [] ++ beDigits B l (n % B ^ l)
    rw [List.nil_append, beDigits_mod]
  | succ j ih =>
    intro l n
    have he : j + 1 + l = (j + l) + 1 := by omega
    rw [he]
    show (n / B ^ (j + l) % B) :: beDigits B (j + l) (n % B ^ (j + l)) = _
    have hd : n / B ^ (j + l) = n / B ^ l / B ^ j := by
      rw [Nat.div_div_eq_div_mul, ← pow_add, Nat.add_comm l j]
    have h1 : n % B ^ (j + l) / B ^ l = n / B ^ l % B ^ j := by
      have : B ^ (j + l) = B ^ l * B ^ j := by rw [← pow_add]; congr 1; omega
      rw [this]
      exact Nat.mod_mul_right_div_self n (B ^ l) (B ^ j)
    have h2 : n % B ^ (j + l) % B ^ l = n % B ^ l :=
      Nat.mod_mod_of_dvd n (pow_dvd_pow B (by omega))
    rw [ih l (n % B ^ (j + l)), h1, h2]
    show _ = (n / B ^ l / B ^ j % B) :: (beDigits B j (n / B ^ l % B ^ j) ++ _)
    rw [hd]

theorem beDigits_flat (k : Nat) :
    ∀ L n, (beDigits (2 ^ k) L n).flatMap (fun b => beDigits 2 k b) =
      beDigits 2 (k * L) n := by
  intro L
  induction L with
  | zero => intro n; simp [beDigits]
  | succ L ih =>
    intro n
    have hmul : k * (L + 1) = k + k * L := by ring
    rw [hmul, beDigits_split 2 k (k * L) n]
    show beDigits 2 k (n / (2 ^ k) ^ L % 2 ^ k) ++
      (beDigits (2 ^ k) L (n % (2 ^ k) ^ L)).flatMap (fun b => beDigits 2 k b) = _
    rw [ih (n % (2 ^ k) ^ L)]
    have hpl : ((2 : Nat) ^ k) ^ L = 2 ^ (k * L) := by rw [← pow_mul]
    rw [hpl, beDigits_mod]

theorem bitsVal_beDigits :
    ∀ L x acc, List.foldl (fun a b => a * 2 + b) acc (beDigits 2 L x) =
      acc * 2 ^ L + x % 2 ^ L := by
  intro L
  induction L with
  | zero => intro x acc; simp [beDigits, Nat.mod_one]
  | succ L ih =>
    intro x acc
    show List.foldl _ (acc * 2 + x / 2 ^ L % 2) (beDigits 2 L (x % 2 ^ L)) = _
    rw [ih (x % 2 ^ L) (acc * 2 + x / 2 ^ L % 2),
      Nat.mod_mod_of_dvd x (dvd_refl _)]
    have hm : x % 2 ^ (L + 1) = x % 2 ^ L + 2 ^ L * (x / 2 ^ L % 2) := by
      have : (2 : Nat) ^ (L + 1) = 2 ^ L * 2 := pow_succ 2 L
      rw [this, Nat.mod_mul]
    rw [hm, pow_succ]
    ring

theorem bitsToSymsGo_nil (f : Nat) : bitsToSymsGo f [] = [] := by
  cases f <;> simp [bitsToSymsGo]

theorem bitsToSymsGo_step (f : Nat) (bits : List Nat) (hne : bits ≠ []) :
    bitsToSymsGo (f + 1) bits =
      bitsVal ((bits ++ [0, 0, 0, 0]).take 5) ::
        bitsToSymsGo f (bits.drop 5) := by
  have he : bits.isEmpty = false := by
    cases bits with
    | nil => exact absurd rfl hne
    | cons a as => rfl
  simp [bitsToSymsGo, he]

theorem bitsToSymsGo_ragged :
    ∀ (G : Nat) (m fuel : Nat), 5 * G + 1 ≤ fuel →
      bitsToSymsGo fuel (beDigits 2 (5 * G + 1) m) =
        beDigits 32 (G + 1) (16 * m) := by
  intro G
  induction G with
  | zero =>
    intro m fuel hf
    cases fuel with
    | zero => omega
    | succ f =>
      have hbits : beDigits 2 (5 * 0 + 1) m = [m % 2] := by
        simp [beDigits]
      rw [hbits, bitsToSymsGo_step f [m % 2] (by simp)]
      have htake : (([m % 2] ++ [0, 0, 0, 0]).take 5) = [m % 2, 0, 0, 0, 0] := by
        rfl
      have hdrop : ([m % 2] : List Nat).drop 5 = [] := rfl
      rw [htake, hdrop, bitsToSymsGo_nil]
      have hval : bitsVal [m % 2, 0, 0, 0, 0] = m % 2 * 16 := by
        simp [bitsVal]
        ring
      rw [hval]
      have hrhs : beDigits 32 (0 + 1) (16 * m) = [16 * m % 32] := by
        simp [beDigits]
      rw [hrhs]
      have : 16 * m % 32 = 16 * (m % 2) := Nat.mul_mod_mul_left 16 m 2
      rw [this]
      congr 1
      ring
  | succ G ih =>
    intro m fuel hf
    cases fuel with
    | zero => omega
    | succ f =>
      have hsplit : beDigits 2 (5 * (G + 1) + 1) m =
          beDigits 2 5 (m / 2 ^ (5 * G + 1)) ++
            beDigits 2 (5 * G + 1) (m % 2 ^ (5 * G + 1)) := by
        have he : 5 * (G + 1) + 1 = 5 + (5 * G + 1) := by ring
        rw [he, beDigits_split 2 5 (5 * G + 1) m]
      have hlen5 : (beDigits 2 5 (m / 2 ^ (5 * G + 1))).length = 5 :=
        beDigits_length 2 5 _
      have hne : beDigits 2 (5 * (G + 1) + 1) m ≠ [] := by
        intro hnil
        have := congrArg List.length hnil
        rw [beDigits_length] at this
        simp at this
      rw [hsplit] at hne ⊢
      rw [bitsToSymsGo_step f _ hne]
      have htake : ((beDigits 2 5 (m / 2 ^ (5 * G + 1)) ++
          beDigits 2 (5 * G + 1) (m % 2 ^ (5 * G + 1))) ++
            [0, 0, 0, 0]).take 5 = beDigits 2 5 (m / 2 ^ (5 * G + 1)) := by
        rw [List.append_assoc]
        exact List.take_left' hlen5
      have hdrop : (beDigits 2 5 (m / 2 ^ (5 * G + 1)) ++
          beDigits 2 (5 * G + 1) (m % 2 ^ (5 * G + 1))).drop 5 =
          beDigits 2 (5 * G + 1) (m % 2 ^ (5 * G + 1)) :=
        List.drop_left' hlen5
      rw [htake, hdrop, ih (m % 2 ^ (5 * G + 1)) f (by omega)]
      have hval : bitsVal (beDigits 2 5 (m / 2 ^ (5 * G + 1))) =
          m / 2 ^ (5 * G + 1) % 32 := by
        unfold bitsVal
        rw [bitsVal_beDigits 5 _ 0]
        norm_num
      have h32 : (32 : Nat) ^ (G + 1) = 16 * 2 ^ (5 * G + 1) := by
        have h1 : (32 : Nat) = 2 ^ 5 := by norm_num
        rw [h1, ← pow_mul]
        have h2 : 5 * (G + 1) = 4 + (5 * G + 1) := by ring
        rw [h2, pow_add]
        norm_num
      have hhead : m / 2 ^ (5 * G + 1) % 32 = 16 * m / 32 ^ (G + 1) % 32 := by
        rw [h32]
        have : 16 * m / (16 * 2 ^ (5 * G + 1)) = m / 2 ^ (5 * G + 1) :=
          Nat.mul_div_mul_left m (2 ^ (5 * G + 1)) (by norm_num)
        rw [this]
      have htail : 16 * (m % 2 ^ (5 * G + 1)) = 16 * m % 32 ^ (G + 1) := by
        rw [h32]
        exact (Nat.mul_mod_mul_left 16 m (2 ^ (5 * G + 1))).symm
      rw [hval, hhead, htail]
      show _ = (16 * m / 32 ^ (G + 1) % 32) ::
        beDigits 32 (G + 1) (16 * m % 32 ^ (G + 1))
      rfl

theorem natLexLt_beDigits (B : Nat) (hB : 1 ≤ B) :
    ∀ L m n, m < B ^ L → n < B ^ L →
      (natLexLt (beDigits B L m) (beDigits B L n) = true ↔ m < n) := by
  intro L
  induction L with
  | zero =>
    intro m n hm hn
    simp only [pow_zero, Nat.lt_one_iff] at hm hn
    subst hm; subst hn
    simp [beDigits, natLexLt]
  | succ L ih =>
    intro m n hm hn
    have hBL : 0 < B ^ L := Nat.pos_pow_of_pos _ (by omega)
    have hmd : m / B ^ L < B := by
      rw [Nat.div_lt_iff_lt_mul hBL]
      calc m < B ^ (L + 1) := hm
      _ = B * B ^ L := by rw [pow_succ, Nat.mul_comm]
    have hnd : n / B ^ L < B := by
      rw [Nat.div_lt_iff_lt_mul hBL]
      calc n < B ^ (L + 1) := hn
      _ = B * B ^ L := by rw [pow_succ, Nat.mul_comm]
    have hmh : m / B ^ L % B = m / B ^ L := Nat.mod_eq_of_lt hmd
    have hnh : n / B ^ L % B = n / B ^ L := Nat.mod_eq_of_lt hnd
    show (natLexLt ((m / B ^ L % B) :: beDigits B L (m % B ^ L))
      ((n / B ^ L % B) :: beDigits B L (n % B ^ L)) = true) ↔ m < n
    rw [hmh, hnh]
    have hdm := Nat.div_add_mod m (B ^ L)
    have hdn := Nat.div_add_mod n (B ^ L)
    have hmr : m % B ^ L < B ^ L := Nat.mod_lt _ hBL
    have hnr : n % B ^ L < B ^ L := Nat.mod_lt _ hBL
    rcases Nat.lt_trichotomy (m / B ^ L) (n / B ^ L) with hlt | heq | hgt
    · have hlex : natLexLt ((m / B ^ L) :: beDigits B L (m % B ^ L))
          ((n / B ^ L) :: beDigits B L (n % B ^ L)) = true := by
        simp [natLexLt, hlt]
      rw [hlex]
      have hmn : m < n := by
        calc m < B ^ L * (m / B ^ L) + B ^ L := by omega
        _ = B ^ L * (m / B ^ L + 1) := by ring
        _ ≤ B ^ L * (n / B ^ L) := Nat.mul_le_mul_left _ hlt
        _ ≤ B ^ L * (n / B ^ L) + n % B ^ L := Nat.le_add_right _ _
        _ = n := hdn
      simp [hmn]
    · have hlex : natLexLt ((m / B ^ L) :: beDigits B L (m % B ^ L))
          ((n / B ^ L) :: beDigits B L (n % B ^ L)) =
          natLexLt (beDigits B L (m % B ^ L)) (beDigits B L (n % B ^ L)) := by
        simp [natLexLt, heq]
      rw [hlex, ih (m % B ^ L) (n % B ^ L) hmr hnr]
      rw [heq] at hdm
      constructor
      · intro h
        omega
      · intro h
        omega
    · have hlex : natLexLt ((m / B ^ L) :: beDigits B L (m % B ^ L))
          ((n / B ^ L) :: beDigits B L (n % B ^ L)) = false := by
        have h1 : ¬ m / B ^ L < n / B ^ L := by omega
        simp [natLexLt, h1, hgt]
      rw [hlex]
      have hmn : ¬ m < n := by
        have hnm : n < m := by
          calc n < B ^ L * (n / B ^ L) + B ^ L := by omega
          _ = B ^ L * (n / B ^ L + 1) := by ring
          _ ≤ B ^ L * (m / B ^ L) := Nat.mul_le_mul_left _ hgt
          _ ≤ B ^ L * (m / B ^ L) + m % B ^ L := Nat.le_add_right _ _
          _ = m := hdm
        omega
      simp [hmn]

theorem symChar_lt_iff :
    ∀ a < 32, ∀ b < 32, (symChar a < symChar b ↔ a < b) := by decide

theorem symChar_eq_iff :
    ∀ a < 32, ∀ b < 32, (symChar a = symChar b ↔ a = b) := by decide

theorem lexLt_map_symChar :
    ∀ ds es : List Nat, (∀ d ∈ ds, d < 32) → (∀ e ∈ es, e < 32) →
      lexLt (ds.map symChar) (es.map symChar) = natLexLt ds es := by
  intro ds
  induction ds with
  | nil =>
    intro es _ _
    cases es with
    | nil => rfl
    | cons e es => rfl
  | cons d ds ih =>
    intro es hds hes
    cases es with
    | nil => rfl
    | cons e es =>
      have hd : d < 32 := hds d (List.mem_cons_self d ds)
      have he : e < 32 := hes e (List.mem_cons_self e es)
      show (if symChar d < symChar e then true
        else if symChar e < symChar d then false
        else lexLt (ds.map symChar) (es.map symChar)) =
        (if d < e then true else if e < d then false else natLexLt ds es)
      by_cases hde : d < e
      · rw [if_pos ((symChar_lt_iff d hd e he).mpr hde), if_pos hde]
      · rw [if_neg (fun hc => hde ((symChar_lt_iff d hd e he).mp hc)),
          if_neg hde]
        by_cases hed : e < d
        · rw [if_pos ((symChar_lt_iff e he d hd).mpr hed), if_pos hed]
        · rw [if_neg (fun hc => hed ((symChar_lt_iff e he d hd).mp hc)),
            if_neg hed]
          exact ih es (fun x hx => hds x (List.mem_cons_of_mem d hx))
            (fun x hx => hes x (List.mem_cons_of_mem e hx))

theorem keySegRaw_eq (n : Nat) :
    Amount.keySegRaw ⟨n⟩ = (beDigits 32 52 (16 * n)).map symChar := by
  unfold Amount.keySegRaw base32hexEncode toBigEndianBytes bytesToBits byteBits
  have hflat : (beDigits 256 32 n).flatMap (fun b => beDigits 2 8 b) =
      beDigits 2 256 n := by
    have h256 : (256 : Nat) = 2 ^ 8 := by norm_num
    rw [h256]
    have := beDigits_flat 8 32 n
    simpa using this
  rw [hflat]
  unfold bitsToSyms
  rw [beDigits_length]
  have h256 : (256 : Nat) = 5 * 51 + 1 := by norm_num
  rw [h256, bitsToSymsGo_ragged 51 n (5 * 51 + 1) (le_refl _)]

/-- C8: for all `Amount`s, the numeric order agrees with plain lexicographic
string order on the key-segment encoding (32-byte big-endian buffer, then
unpadded base32hex). -/
theorem key_segment_order_preserving (a b : Amount)
    (ha : a.raw < 2 ^ 256) (hb : b.raw < 2 ^ 256) :
    a.raw < b.raw ↔
      lexLt (Amount.keySegRaw a) (Amount.keySegRaw b) = true := by
  obtain ⟨m⟩ := a
  obtain ⟨n⟩ := b
  simp only at ha hb ⊢
  rw [keySegRaw_eq m, keySegRaw_eq n]
  have hbound : ∀ x : Nat, x < 2 ^ 256 → 16 * x < 32 ^ 52 := by
    intro x hx
    have h1 : (32 : Nat) ^ 52 = 16 * 2 ^ 256 := by norm_num
    omega
  rw [lexLt_map_symChar _ _
    (fun d hd => beDigits_lt 32 (by norm_num) 52 _ d hd)
    (fun d hd => beDigits_lt 32 (by norm_num) 52 _ d hd)]
  rw [natLexLt_beDigits 32 (by norm_num) 52 (16 * m) (16 * n)
    (hbound m ha) (hbound n hb)]
  omega

/-- Witness for C8 at the magnitudes 1 and 2: the encodings compare in the
numeric order. -/
theorem key_segment_order_preserving_witness :
    ((Amount.mk 1).raw < (Amount.mk 2).raw ↔
      lexLt (Amount.keySegRaw ⟨1⟩) (Amount.keySegRaw ⟨2⟩) = true) ∧
    lexLt (Amount.keySegRaw ⟨1⟩) (Amount.keySegRaw ⟨2⟩) = true := by
  have h := key_segment_order_preserving ⟨1⟩ ⟨2⟩ (by norm_num) (by norm_num)
  exact ⟨h, h.mp (by norm_num)⟩

end Token
